import Mathlib

/-!
# Verification of cozo core claims

Shallow embedding of four cozo source files and proofs of the frozen claims:

* `storage/mod.rs` — the `StoreTx::batch_put` default implementation;
* `repl.rs` — the REPL `process_line` dispatcher and its params map;
* `query/compile.rs` — `SessionTx::compile_rule_body`;
* `algo/strongly_connected_components.rs` — `TarjanScc` and
  `StronglyConnectedComponent::run`.

Rust `Vec`/`String` become Lean lists, `BTreeMap`/`BTreeSet` become sorted
association lists, machine integers become `Nat` (no operation here can
overflow or go negative), fallible code returns `Except`, and a Rust panic
(`unimplemented!()` / `todo!()`) is a distinguished outcome of a result type.
-/

namespace Cozo

/-! ## Storage substrate: `StoreTx::batch_put` (storage/mod.rs, lines 98-110)

The transaction itself is abstract (each backend supplies its own): we model a
transaction state `σ` together with a `put` operation that either produces the
updated state or fails.  The iterator handed to `batch_put` yields
`Result<(Vec<u8>, Vec<u8>)>` items, so each list element is itself an
`Except`. -/

/-- The default implementation of `StoreTx::batch_put`:
`for pair in data { let (k, v) = pair?; self.put(&k, &v)?; } Ok(())`.
The state returned is the transaction after the performed writes. -/
def batchPut {σ ε α β : Type} (put : σ → α → β → Except ε σ) :
    σ → List (Except ε (α × β)) → Except ε σ
  | s, [] => Except.ok s
  | s, item :: rest =>
    match item with
    | Except.error e => Except.error e
    | Except.ok (k, v) =>
      match put s k v with
      | Except.error e => Except.error e
      | Except.ok s' => batchPut put s' rest

/-- The specification side of claim C9, written from the spec's words:
"default semantics equal to repeated `put`", calling `put` once per pair in
iterator order and stopping at the first error, which is propagated. -/
def specRepeatedPut {σ ε α β : Type} (put : σ → α → β → Except ε σ) :
    σ → List (Except ε (α × β)) → Except ε σ
  | s, [] => Except.ok s
  | s, item :: rest =>
    Except.bind item fun kv =>
      Except.bind (put s kv.1 kv.2) fun s' => specRepeatedPut put s' rest

/-! ## REPL (`cozo-bin/src/repl.rs`)

Rust strings are modelled as `List Char`; `str::trim`,
`split_once(char::is_whitespace)` and `strip_prefix` are reimplemented on
lists.  The params map is a `BTreeMap<String, DataValue>`: a sorted
association list with `insert` replacing an existing key in place and
`remove` returning the removed value.  Everything external to this file
(`db.run_script`, `serde_json`, the filesystem, HTTP) is an oracle supplied
through a `ReplEnv`. -/

/-- Rust `String` / `&str`. -/
abbrev Str := List Char

/-- `char::is_whitespace`. -/
def isWsChar (c : Char) : Bool := c.isWhitespace

/-- `str::trim_start`. -/
def trimLeft (s : Str) : Str := s.dropWhile isWsChar

/-- `str::trim_end`. -/
def trimRight (s : Str) : Str := (s.reverse.dropWhile isWsChar).reverse

/-- `str::trim`. -/
def trimStr (s : Str) : Str := trimRight (trimLeft s)

/-- `str::split_once(|c: char| c.is_whitespace())`: split at the first
whitespace character, which is consumed; `none` when there is none. -/
def splitOnceWsOpt (s : Str) : Option (Str × Str) :=
  match s.dropWhile (fun c => !isWsChar c) with
  | [] => none
  | _ :: tl => some (s.takeWhile (fun c => !isWsChar c), tl)

/-- `remaining.split_once(...).unwrap_or((remaining, ""))` as used for the
command word of a `%` line. -/
def splitOnceWs (s : Str) : Str × Str :=
  match splitOnceWsOpt s with
  | none => (s, [])
  | some p => p

/-- Lexicographic order on `Str`, the key order of `BTreeMap<String, _>`. -/
def ltStr : Str → Str → Bool
  | [], [] => false
  | [], _ :: _ => true
  | _ :: _, [] => false
  | a :: xs, b :: ys => if a < b then true else if b < a then false else ltStr xs ys

/-- `BTreeMap::insert` on the sorted association list (overwrites an existing
key, keeping the map sorted). -/
def mapInsert {α : Type} (k : Str) (v : α) : List (Str × α) → List (Str × α)
  | [] => [(k, v)]
  | (k', v') :: rest =>
    if ltStr k k' then (k, v) :: (k', v') :: rest
    else if k = k' then (k, v) :: rest
    else (k', v') :: mapInsert k v rest

/-- `BTreeMap::remove`, returning the removed value (if any) and the rest. -/
def mapRemove {α : Type} (k : Str) : List (Str × α) → Option α × List (Str × α)
  | [] => (none, [])
  | (k', v') :: rest =>
    if k = k' then (some v', rest)
    else
      let r := mapRemove k rest
      (r.1, (k', v') :: r.2)

/-- `BTreeMap::contains_key`-style lookup. -/
def mapLookup {α : Type} (k : Str) : List (Str × α) → Option α
  | [] => none
  | (k', v') :: rest => if k = k' then some v' else mapLookup k rest

/-- `NamedRows` as returned by `db.run_script`. -/
structure NamedRows (Val : Type) : Type where
  headers : List Str
  rows : List (List Val)
deriving DecidableEq, Repr

/-- External collaborators of `process_line`, abstracted: the database handle,
`serde_json` + `DataValue::from`, the filesystem and HTTP. -/
structure ReplEnv (Val : Type) : Type where
  runScript : Str → List (Str × Val) → Except Str (NamedRows Val)
  evalExprs : Str → List (Str × Val) → Except Str Str
  parseJson : Str → Option Val
  readFile : Str → Except Str Str
  httpGet : Str → Except Str Str
  importRel : Str → Except Str Unit
  backupDb : Str → Except Str Unit
  restoreDb : Str → Except Str Unit

/-- The mutable REPL state threaded through `process_line`: the `params` map
and the pending `save_next` path. -/
structure ReplState (Val : Type) : Type where
  params : List (Str × Val)
  saveNext : Option Str
deriving DecidableEq, Repr

/-- Observable effects of one `process_line` call.  `table` is the pretty
table printed by `process_out`'s else-branch; `fileSave` is the branch that
persists the rows as a JSON array to the pending path; `info` abstracts the
various `println!` diagnostics. -/
inductive ReplEff (Val : Type) : Type where
  | table (out : NamedRows Val)
  | fileSave (path : Str) (out : NamedRows Val)
  | info
deriving DecidableEq, Repr

/-- The `process_out` closure (repl.rs lines 158-207): if a save is pending,
write the rows to the file and clear `save_next`; otherwise print the table. -/
def processOut {Val : Type} (st : ReplState Val) (out : NamedRows Val) :
    ReplState Val × List (ReplEff Val) :=
  match st.saveNext with
  | some path => ({ st with saveNext := none }, [ReplEff.fileSave path out])
  | none => (st, [ReplEff.table out])

/-- The non-`%` branch (and the `%` fall-through branch):
`db.run_script(line, params.clone(), Mutable)` then `process_out`. -/
def runScriptBranch {Val : Type} (env : ReplEnv Val) (line : Str)
    (st : ReplState Val) : Except Str (ReplState Val × List (ReplEff Val)) :=
  match env.runScript line st.params with
  | Except.error e => Except.error e
  | Except.ok out => Except.ok (processOut st out)

/-- Error message constants of the REPL (the `bail!`/`miette!` texts are
abstracted to their identity; only which branch fails matters). -/
def errBadSet : Str := "bad set syntax".toList

/-- `bail!("Key not found ...")` in the `unset` arm. -/
def errKeyNotFound : Str := "key not found".toList

/-- `serde_json::from_str` failure in the `set` arm. -/
def errBadJson : Str := "bad json".toList

/-- Empty-path `bail!`s of the `backup`/`run`/`restore` arms. -/
def errNeedsPath : Str := "requires a path".toList

/-- The `%` command dispatcher of `process_line` (repl.rs lines 209-295).
`line` is the whole trimmed line (used unchanged by the fall-through arm),
`op` the command word and `payload` the rest. -/
def dispatchCmd {Val : Type} (env : ReplEnv Val) (line : Str) (op payload : Str)
    (st : ReplState Val) : Except Str (ReplState Val × List (ReplEff Val)) :=
  if op = "eval".toList then
    match env.evalExprs payload st.params with
    | Except.error e => Except.error e
    | Except.ok _ => Except.ok (st, [ReplEff.info])
  else if op = "set".toList then
    match splitOnceWsOpt (trimStr payload) with
    | none => Except.error errBadSet
    | some (key, vstr) =>
      match env.parseJson vstr with
      | none => Except.error errBadJson
      | some v => Except.ok ({ st with params := mapInsert key v st.params }, [])
  else if op = "unset".toList then
    let key := trimStr payload
    match mapRemove key st.params with
    | (none, _) => Except.error errKeyNotFound
    | (some _, rest) => Except.ok ({ st with params := rest }, [])
  else if op = "clear".toList then
    Except.ok ({ st with params := [] }, [])
  else if op = "params".toList then
    Except.ok (st, [ReplEff.info])
  else if op = "backup".toList then
    let path := trimStr payload
    if path = [] then Except.error errNeedsPath
    else
      match env.backupDb path with
      | Except.error e => Except.error e
      | Except.ok _ => Except.ok (st, [ReplEff.info])
  else if op = "run".toList then
    let path := trimStr payload
    if path = [] then Except.error errNeedsPath
    else
      match env.readFile path with
      | Except.error e => Except.error e
      | Except.ok content =>
        match env.runScript content st.params with
        | Except.error e => Except.error e
        | Except.ok out => Except.ok (processOut st out)
  else if op = "restore".toList then
    let path := trimStr payload
    if path = [] then Except.error errNeedsPath
    else
      match env.restoreDb path with
      | Except.error e => Except.error e
      | Except.ok _ => Except.ok (st, [ReplEff.info])
  else if op = "save".toList then
    let nextPath := trimStr payload
    if nextPath = [] then
      Except.ok (st, [ReplEff.info])
    else
      Except.ok ({ st with saveNext := some nextPath }, [ReplEff.info])
  else if op = "import".toList then
    let url := trimStr payload
    if ("http://".toList).isPrefixOf url ∨ ("https://".toList).isPrefixOf url then
      match env.httpGet url with
      | Except.error e => Except.error e
      | Except.ok data =>
        match env.importRel data with
        | Except.error e => Except.error e
        | Except.ok _ => Except.ok (st, [ReplEff.info])
    else
      let filePath := if ("file://".toList).isPrefixOf url then
          url.drop ("file://".toList).length
        else url
      match env.readFile filePath with
      | Except.error e => Except.error e
      | Except.ok content =>
        match env.importRel content with
        | Except.error e => Except.error e
        | Except.ok _ => Except.ok (st, [ReplEff.info])
  else
    runScriptBranch env line st

/-- `process_line` (repl.rs lines 147-301).  Returns the updated REPL state
and the observable effects, or the surfaced error. -/
def processLine {Val : Type} (env : ReplEnv Val) (rawLine : Str)
    (st : ReplState Val) : Except Str (ReplState Val × List (ReplEff Val)) :=
  let line := trimStr rawLine
  match line with
  | [] => Except.ok (st, [])
  | c :: remaining0 =>
    if c = '%' then
      let remaining := trimStr remaining0
      let opPayload := splitOnceWs remaining
      dispatchCmd env line opPayload.1 opPayload.2 st
    else
      runScriptBranch env line st

/-! ## Rule compiler (`src/query/compile.rs`)

`Keyword` is modelled as `String`; generated temporaries carry the reserved
prefix character `*`.  `BTreeSet<Keyword>` is a sorted, duplicate-free list
built by `kwInsert`, so Rust's structural (in)equality on `BTreeSet` is list
(in)equality here.  `Expr` is modelled by the only feature `compile_rule_body`
uses: the set of variables it mentions (`collect_bindings`).  `Attribute`,
`Validity`, `TempStore` and `EntityId` are opaque handles (`Nat`).

`compile_rule_body` returns `anyhow::Result<Relation>`, but two body shapes
make the Rust code panic (`unimplemented!()` for a self-triple, `todo!()` for
`Logical`/`BindUnify` atoms); a panic is not an `Err`, so the model's result
type `CompRes` keeps it as a third outcome. -/

/-- Rule-IR variable name (an interned `Keyword` string). -/
abbrev Keyword := Str

/-- Is this keyword a generated temporary (`*0`, `*1`, ...)? -/
def isTempKw (k : Keyword) : Bool :=
  match k with
  | c :: _ => c = '*'
  | [] => false

/-- The fresh-temporary generator of `compile_rule_body`: `*{serial}`. -/
def genTempKw (serial : Nat) : Keyword := '*' :: Nat.toDigits 10 serial

/-- `BTreeSet<Keyword>` insertion into a sorted duplicate-free list. -/
def kwInsert (k : Keyword) : List Keyword → List Keyword
  | [] => [k]
  | k' :: rest =>
    if ltStr k k' then k :: k' :: rest
    else if k = k' then k' :: rest
    else k' :: kwInsert k rest

/-- Build a `BTreeSet<Keyword>` from an iterator (`.collect()`). -/
def kwSetOf (l : List Keyword) : List Keyword := l.foldl (fun s k => kwInsert k s) []

/-- `BTreeSet` difference, `a.sub(&b)` (as a set of keywords). -/
def kwSub (a b : List Keyword) : List Keyword := a.filter (fun k => k ∉ b)

/-- `DataValue`, restricted to what `compile_rule_body` constructs: entity ids
injected by `DataValue::EnId` and otherwise-opaque constants. -/
inductive DVal : Type where
  | enId (eid : Nat)
  | other (tag : Nat)
deriving DecidableEq, Repr

/-- A predicate expression, modelled by its collected variable set
(`Expr::collect_bindings` is all `compile_rule_body` ever asks of it). -/
structure PExpr : Type where
  vars : List Keyword
deriving DecidableEq, Repr

/-- `Term<T>` (compile.rs lines 70-74). -/
inductive CTerm (α : Type) : Type where
  | var (k : Keyword)
  | const (c : α)
deriving DecidableEq, Repr

/-- `AttrTripleAtom` (compile.rs lines 99-104); the attribute is an opaque
schema handle. -/
structure AttrTripleAtom : Type where
  attr : Nat
  entity : CTerm Nat
  value : CTerm DVal
deriving DecidableEq, Repr

/-- `RuleApplyAtom` (compile.rs lines 106-110). -/
structure RuleApplyAtom : Type where
  name : Keyword
  args : List (CTerm DVal)
deriving DecidableEq, Repr

/-- `Atom` (compile.rs lines 127-134).  The payloads of `Logical` and
`BindUnify` are irrelevant: both hit `todo!()` in every consumer. -/
inductive Atom : Type where
  | attrTriple (a : AttrTripleAtom)
  | rule (r : RuleApplyAtom)
  | pred (p : PExpr)
  | logical
  | bindUnify
deriving DecidableEq, Repr

/-- `QueryCompilationError` (compile.rs lines 38-68), restricted to the
variants `compile_rule_body` can produce plus `LogicError` (named by claim
C3).  Keyword sets are carried as sorted duplicate-free lists. -/
inductive QueryCompilationError : Type where
  | arityMismatch (name : Keyword)
  | undefinedRule (name : Keyword)
  | unsafeUnboundVars (vars : List Keyword)
  | logicError (msg : Str)
  | unsafeBindingInPredicate (e : PExpr) (vars : List Keyword)
deriving DecidableEq, Repr

/-- Outcome of a Rust function returning `Result` that may additionally
panic: `ok`, `err`, or a `panic` raised by `unimplemented!()`/`todo!()`. -/
inductive CompRes (α : Type) : Type where
  | ok (val : α)
  | err (e : QueryCompilationError)
  | panicked
deriving DecidableEq, Repr

/-- `Relation` plan nodes (query/relation.rs is not part of the sample; the
node shapes are those of the spec's data model §3 and are constructed by
`compile_rule_body` through `Relation::unit/singlet/triple/derived`,
`.join`, `.cartesian_join`, `.filter`, `.reorder`). -/
inductive Relation : Type where
  | unit
  | singlet (vars : List Keyword) (vals : List DVal)
  | triple (attr : Nat) (vld : Nat) (e v : Keyword)
  | derived (vars : List Keyword) (store : Nat)
  | join (l r : Relation) (lk rk : List Keyword)
  | cartesian (l r : Relation)
  | filter (child : Relation) (e : PExpr)
  | reorder (child : Relation) (ord : List Keyword)
deriving DecidableEq, Repr

/-- `Relation::is_unit`. -/
def Relation.isUnit : Relation → Bool
  | Relation.unit => true
  | _ => false

/-- Modelled from the spec: the `bindings` of a plan node ("the ordered set of
variables available downstream", spec §3); `query/relation.rs` is missing
from the sample.  A join or cartesian product exposes both sides' bindings, a
filter and a reorder expose the child's. -/
def Relation.bindings : Relation → List Keyword
  | Relation.unit => []
  | Relation.singlet vars _ => vars
  | Relation.triple _ _ e v => [e, v]
  | Relation.derived vars _ => vars
  | Relation.join l r _ _ => l.bindings ++ r.bindings
  | Relation.cartesian l r => l.bindings ++ r.bindings
  | Relation.filter child _ => child.bindings
  | Relation.reorder _ ord => ord

/-- Modelled from the spec: `bindings_after_eliminate` — the bindings left
after `eliminate_temp_vars(ret_vars_set)` drops "any column whose name is a
generated temp and does not appear in `ret_vars_set`" (spec §4.4);
`query/relation.rs` is missing from the sample.  The elimination target is
passed explicitly (the Rust method reads it from state recorded by
`eliminate_temp_vars`). -/
def Relation.bindingsAfterEliminate (r : Relation) (tgt : List Keyword) : List Keyword :=
  r.bindings.filter (fun k => !isTempKw k || k ∈ tgt)

/-- Modelled from the spec: the fallible part of `eliminate_temp_vars` —
for every `Filter` node "the set of variables it references is a subset of
its child's bindings" (spec §8), and a violation surfaces as
*UnsafeBindingInPredicate* with the offending variables (spec §4.4);
`query/relation.rs` is missing from the sample. -/
def Relation.elimCheck : Relation → Except QueryCompilationError Unit
  | Relation.unit => Except.ok ()
  | Relation.singlet _ _ => Except.ok ()
  | Relation.triple _ _ _ _ => Except.ok ()
  | Relation.derived _ _ => Except.ok ()
  | Relation.join l r _ _ => Except.bind l.elimCheck fun _ => r.elimCheck
  | Relation.cartesian l r => Except.bind l.elimCheck fun _ => r.elimCheck
  | Relation.reorder child _ => child.elimCheck
  | Relation.filter child e =>
    Except.bind child.elimCheck fun _ =>
      if e.vars.all (fun v => v ∈ child.bindings) then Except.ok ()
      else
        Except.error (QueryCompilationError.unsafeBindingInPredicate e
          (kwSetOf (e.vars.filter (fun v => v ∉ child.bindings))))

/-- `eliminate_temp_vars(&ret_vars_set)`: the elimination itself is modelled
through `bindingsAfterEliminate`; the fallible safety check is `elimCheck`
(the target set does not influence which filters are unsafe). -/
def Relation.eliminateTempVars (r : Relation) (_tgt : List Keyword) :
    Except QueryCompilationError Unit :=
  r.elimCheck

/-- The mutable loop state of `compile_rule_body`: the accumulator relation
`ret`, the `seen_variables` set and the temp-keyword serial counter. -/
structure CState : Type where
  ret : Relation
  seen : List Keyword
  serial : Nat
deriving DecidableEq, Repr

/-- Initial loop state: `ret = Relation::unit()`, no seen variables,
serial 0. -/
def initCState : CState := ⟨Relation.unit, [], 0⟩

/-- Lookup in the `stores: BTreeMap<Keyword, (TempStore, usize)>` map. -/
def storesGet (name : Keyword) : List (Keyword × Nat × Nat) → Option (Nat × Nat)
  | [] => none
  | (n, sa) :: rest => if name = n then some sa else storesGet name rest

/-- The accumulators of the `for term in &rule_app.args` loop:
`prev_joiner_vars`, `temp_left_bindings`, `temp_left_joiner_vals`,
`right_joiner_vars`, `right_vars`, plus `seen_variables` and the temp
serial. -/
structure RArgs : Type where
  pj : List Keyword
  tlb : List Keyword
  tlv : List DVal
  rj : List Keyword
  rv : List Keyword
  seen : List Keyword
  serial : Nat
deriving DecidableEq, Repr

/-- The `for term in &rule_app.args` loop of the `Atom::Rule` arm
(compile.rs lines 385-408). -/
def ruleArgsLoop : List (CTerm DVal) → RArgs → RArgs
  | [], acc => acc
  | CTerm.var v :: rest, acc =>
    if v ∈ acc.seen then
      let rk := genTempKw acc.serial
      ruleArgsLoop rest
        { acc with
          pj := acc.pj ++ [v], rj := acc.rj ++ [rk],
          rv := acc.rv ++ [rk], serial := acc.serial + 1 }
    else
      ruleArgsLoop rest { acc with rv := acc.rv ++ [v], seen := kwInsert v acc.seen }
  | CTerm.const c :: rest, acc =>
    let lk := genTempKw acc.serial
    let rk := genTempKw (acc.serial + 1)
    ruleArgsLoop rest
      { acc with
        pj := acc.pj ++ [lk], tlb := acc.tlb ++ [lk],
        tlv := acc.tlv ++ [c], rj := acc.rj ++ [rk], rv := acc.rv ++ [rk],
        serial := acc.serial + 2 }

/-- One iteration of the `for clause in clauses` loop of `compile_rule_body`
(compile.rs lines 240-427). -/
def stepClause (vld : Nat) (stores : List (Keyword × Nat × Nat)) (st : CState) :
    Atom → CompRes CState
  | Atom.attrTriple a =>
    match a.entity, a.value with
    | CTerm.const eid, CTerm.var vKw =>
      let tjl := genTempKw st.serial
      let tjr := genTempKw (st.serial + 1)
      let constRel := Relation.singlet [tjl] [DVal.enId eid]
      let ret1 := if st.ret.isUnit then constRel else Relation.cartesian st.ret constRel
      if vKw ∈ st.seen then
        let t := genTempKw (st.serial + 2)
        let right := Relation.triple a.attr vld tjr t
        CompRes.ok ⟨Relation.join ret1 right [tjl, vKw] [tjr, t], st.seen, st.serial + 3⟩
      else
        let right := Relation.triple a.attr vld tjr vKw
        CompRes.ok ⟨Relation.join ret1 right [tjl] [tjr], kwInsert vKw st.seen,
          st.serial + 2⟩
    | CTerm.var eKw, CTerm.const val =>
      let tjl := genTempKw st.serial
      let tjr := genTempKw (st.serial + 1)
      let constRel := Relation.singlet [tjl] [val]
      let ret1 := if st.ret.isUnit then constRel else Relation.cartesian st.ret constRel
      if eKw ∈ st.seen then
        let t := genTempKw (st.serial + 2)
        let right := Relation.triple a.attr vld t tjr
        CompRes.ok ⟨Relation.join ret1 right [tjl, eKw] [tjr, t], st.seen, st.serial + 3⟩
      else
        let right := Relation.triple a.attr vld eKw tjr
        CompRes.ok ⟨Relation.join ret1 right [tjl] [tjr], kwInsert eKw st.seen,
          st.serial + 2⟩
    | CTerm.var eKw, CTerm.var vKw =>
      if eKw = vKw then CompRes.panicked
      else
        let e' := if eKw ∈ st.seen then genTempKw st.serial else eKw
        let seen1 := if eKw ∈ st.seen then st.seen else kwInsert eKw st.seen
        let serial1 := if eKw ∈ st.seen then st.serial + 1 else st.serial
        let jl1 : List Keyword := if eKw ∈ st.seen then [eKw] else []
        let jr1 : List Keyword := if eKw ∈ st.seen then [e'] else []
        let v' := if vKw ∈ seen1 then genTempKw serial1 else vKw
        let seen2 := if vKw ∈ seen1 then seen1 else kwInsert vKw seen1
        let serial2 := if vKw ∈ seen1 then serial1 + 1 else serial1
        let jl2 := if vKw ∈ seen1 then jl1 ++ [vKw] else jl1
        let jr2 := if vKw ∈ seen1 then jr1 ++ [v'] else jr1
        let right := Relation.triple a.attr vld e' v'
        if st.ret.isUnit then CompRes.ok ⟨right, seen2, serial2⟩
        else CompRes.ok ⟨Relation.join st.ret right jl2 jr2, seen2, serial2⟩
    | CTerm.const eid, CTerm.const val =>
      let l1 := genTempKw st.serial
      let l2 := genTempKw (st.serial + 1)
      let constRel := Relation.singlet [l1, l2] [DVal.enId eid, val]
      let ret1 := if st.ret.isUnit then constRel else Relation.cartesian st.ret constRel
      let r1 := genTempKw (st.serial + 2)
      let r2 := genTempKw (st.serial + 3)
      let right := Relation.triple a.attr vld r1 r2
      CompRes.ok ⟨Relation.join ret1 right [l1, l2] [r1, r2], st.seen, st.serial + 4⟩
  | Atom.rule ruleApp =>
    match storesGet ruleApp.name stores with
    | none => CompRes.err (QueryCompilationError.undefinedRule ruleApp.name)
    | some (store, arity) =>
      if arity ≠ ruleApp.args.length then
        CompRes.err (QueryCompilationError.arityMismatch ruleApp.name)
      else
        let acc := ruleArgsLoop ruleApp.args ⟨[], [], [], [], [], st.seen, st.serial⟩
        let ret1 := if acc.tlv.isEmpty then st.ret
          else Relation.cartesian st.ret (Relation.singlet acc.tlb acc.tlv)
        let right := Relation.derived acc.rv store
        CompRes.ok ⟨Relation.join ret1 right acc.pj acc.rj, acc.seen, acc.serial⟩
  | Atom.pred p => CompRes.ok ⟨Relation.filter st.ret p, st.seen, st.serial⟩
  | Atom.logical => CompRes.panicked
  | Atom.bindUnify => CompRes.panicked

/-- The whole `for clause in clauses` loop. -/
def compileClauses (vld : Nat) (stores : List (Keyword × Nat × Nat)) :
    CState → List Atom → CompRes CState
  | st, [] => CompRes.ok st
  | st, cl :: rest =>
    match stepClause vld stores st cl with
    | CompRes.ok st' => compileClauses vld stores st' rest
    | CompRes.err e => CompRes.err e
    | CompRes.panicked => CompRes.panicked

/-- `SessionTx::compile_rule_body` (compile.rs lines 224-450): run the clause
loop, then the projection steps of lines 430-449 — eliminate temporaries,
retry once after a cartesian join with `Unit`, and on a remaining mismatch
report `UnsafeUnboundVars` with `cur_ret_set.sub(&cur_ret_set)` exactly as
the source does (line 441 diffs the set against itself).  Finally reorder if
the binding order differs from `ret_vars`. -/
def compileRuleBody (clauses : List Atom) (vld : Nat)
    (stores : List (Keyword × Nat × Nat)) (retVars : List Keyword) :
    CompRes Relation :=
  match compileClauses vld stores initCState clauses with
  | CompRes.err e => CompRes.err e
  | CompRes.panicked => CompRes.panicked
  | CompRes.ok st =>
    let retVarsSet := kwSetOf retVars
    match st.ret.eliminateTempVars retVarsSet with
    | Except.error e => CompRes.err e
    | Except.ok _ =>
      let curRetSet := kwSetOf (st.ret.bindingsAfterEliminate retVarsSet)
      let ret1 := if curRetSet ≠ retVarsSet then Relation.cartesian st.ret Relation.unit
        else st.ret
      match (if curRetSet ≠ retVarsSet then ret1.eliminateTempVars retVarsSet
             else Except.ok ()) with
      | Except.error e => CompRes.err e
      | Except.ok _ =>
        let curRetSet2 := kwSetOf (ret1.bindingsAfterEliminate retVarsSet)
        if curRetSet2 ≠ retVarsSet then
          CompRes.err (QueryCompilationError.unsafeUnboundVars (kwSub curRetSet2 curRetSet2))
        else
          let curRetBindings := ret1.bindingsAfterEliminate retVarsSet
          if retVars ≠ curRetBindings then
            CompRes.ok (Relation.reorder ret1 retVars)
          else CompRes.ok ret1

/-- Does every `Filter` node of the plan reference only variables available
in its child's bindings?  (`elimCheck` succeeds exactly on such plans.) -/
def Relation.filtersOk : Relation → Bool
  | Relation.unit => true
  | Relation.singlet _ _ => true
  | Relation.triple _ _ _ _ => true
  | Relation.derived _ _ => true
  | Relation.join l r _ _ => l.filtersOk && r.filtersOk
  | Relation.cartesian l r => l.filtersOk && r.filtersOk
  | Relation.reorder child _ => child.filtersOk
  | Relation.filter child e =>
    child.filtersOk && e.vars.all (fun v => v ∈ child.bindings)

/-- A term mentions no generated-temporary variable name (user-written atoms
cannot contain the reserved `*` prefix). -/
def CTerm.varNonTemp {α : Type} : CTerm α → Bool
  | CTerm.var k => !isTempKw k
  | CTerm.const _ => true

/-- A user-written atom mentions no generated-temporary variable name. -/
def Atom.wfA : Atom → Bool
  | Atom.attrTriple a => a.entity.varNonTemp && a.value.varNonTemp
  | Atom.rule r => r.args.all CTerm.varNonTemp
  | Atom.pred p => p.vars.all (fun k => !isTempKw k)
  | Atom.logical => true
  | Atom.bindUnify => true

/-- Loop-state invariant of `compile_rule_body`: the non-temporary bindings
of the accumulator relation are exactly the `seen_variables`. -/
def nonTempOk (st : CState) : Prop :=
  ∀ k : Keyword, isTempKw k = false → (k ∈ st.ret.bindings ↔ k ∈ st.seen)

/-! ## Strongly connected components
(`cozo-core/src/algo/strongly_connected_components.rs`)

The graph is an adjacency list `List (List Nat)` over node indices
`0, …, graph.len() - 1`, exactly the `&[Vec<usize>]` handed to
`TarjanScc::new`.  The four `Vec`-fields of the struct become total
functions over `Nat` (reads outside `0..n` never happen on well-formed
input); the explicit `stack` stays a list with its head as the top.

The recursive `dfs` is made total with a fuel argument; `run` passes
`graph.len()` which is proved sufficient below (each nested call starts at an
unvisited node and immediately marks it).  `Poison` is modelled as the
sequence of answers of successive `poison.check()` calls: `p k = true` means
the token was poisoned at the `k`-th check. -/

/-- Pointwise update of a function, modelling `Vec` index assignment. -/
def upd {β : Type} (f : Nat → β) (i : Nat) (b : β) : Nat → β :=
  fun j => if j = i then b else f j

/-- The mutable state of `TarjanScc` (struct fields `id`, `ids`, `low`,
`on_stack`, `stack`). -/
structure TarjanSt : Type where
  id : Nat
  ids : Nat → Option Nat
  low : Nat → Nat
  onStack : Nat → Bool
  stack : List Nat

/-- `TarjanScc::new`: counter 0, no discovery ids, `low` all 0, nothing on
the stack. -/
def initTarjanSt : TarjanSt :=
  ⟨0, fun _ => none, fun _ => 0, fun _ => false, []⟩

/-- The entry block of `dfs` (lines 125-129): push `v`, mark it on-stack,
bump the id counter, record discovery id and initial low. -/
def dfsEnter (s : TarjanSt) (v : Nat) : TarjanSt :=
  { id := s.id + 1
    ids := upd s.ids v (some (s.id + 1))
    low := upd s.low v (s.id + 1)
    onStack := upd s.onStack v true
    stack := v :: s.stack }

/-- The `while let Some(node) = self.stack.pop()` loop (lines 140-146):
pop down to and including `v`, marking popped nodes off-stack and
overwriting their `low` with `idAt = ids[v]`. -/
def popLoop (v idAt : Nat) : List Nat → (Nat → Bool) → (Nat → Nat) →
    List Nat × (Nat → Bool) × (Nat → Nat)
  | [], os, lw => ([], os, lw)
  | node :: rest, os, lw =>
    let os' := upd os node false
    let lw' := upd lw node idAt
    if node = v then (rest, os', lw')
    else popLoop v idAt rest os' lw'

/-- The `for to in &self.graph[at]` loop body of `dfs` (lines 130-138),
parameterized by the recursive call on the children (`rec`). -/
def dfsKids (rec : TarjanSt → Nat → TarjanSt) : TarjanSt → Nat → List Nat → TarjanSt
  | s, _, [] => s
  | s, v, w :: ws =>
    let s1 := if (s.ids w).isNone then rec s w else s
    let s2 := if s1.onStack w
      then { s1 with low := upd s1.low v (min (s1.low v) (s1.low w)) }
      else s1
    dfsKids rec s2 v ws

/-- `TarjanScc::dfs` (lines 124-148), with fuel (structural, so that concrete
runs evaluate); `run` supplies fuel `graph.len()`, which never runs out. -/
def dfsF (g : List (List Nat)) : Nat → TarjanSt → Nat → TarjanSt
  | 0, s, _ => s
  | fuel + 1, s, v =>
    let s1 := dfsEnter s v
    let s2 := dfsKids (dfsF g fuel) s1 v (g.getD v [])
    let idAt := (s2.ids v).getD 0
    if idAt = s2.low v then
      let pr := popLoop v idAt s2.stack s2.onStack s2.low
      { s2 with stack := pr.1, onStack := pr.2.1, low := pr.2.2 }
    else s2

/-- The root loop of `TarjanScc::run` (lines 110-115) with the poison checks,
iterating over the remaining node indices (`run` starts it on
`0, …, graph.len() - 1`): after each top-level `dfs` the token is consulted;
a poisoned answer aborts with *Cancelled* (modelled as `Except.error ()`).
Returns the final state and the number of checks performed. -/
def runLoop (g : List (List Nat)) (p : Nat → Bool) :
    List Nat → TarjanSt → Nat → Except Unit (TarjanSt × Nat)
  | [], s, checks => Except.ok (s, checks)
  | i :: is, s, checks =>
    if (s.ids i).isNone then
      let s' := dfsF g g.length s i
      if p checks then Except.error ()
      else runLoop g p is s' (checks + 1)
    else runLoop g p is s checks

/-- The same root loop without a poison token (it never aborts); used to
name the number of top-level checks a complete run performs. -/
def runLoopPure (g : List (List Nat)) : List Nat → TarjanSt → Nat → TarjanSt × Nat
  | [], s, checks => (s, checks)
  | i :: is, s, checks =>
    if (s.ids i).isNone then
      runLoopPure g is (dfsF g g.length s i) (checks + 1)
    else runLoopPure g is s checks

/-- The number of `poison.check()` calls a complete (uncancelled) run of
`TarjanScc::run` performs: one per top-level DFS root. -/
def checksTotal (g : List (List Nat)) : Nat :=
  (runLoopPure g (List.range g.length) initTarjanSt 0).2

/-- Sorted duplicate-free insertion, the key order of
`BTreeMap<usize, Vec<usize>>`. -/
def natInsertSorted (k : Nat) : List Nat → List Nat
  | [] => [k]
  | k' :: rest =>
    if k < k' then k :: k' :: rest
    else if k = k' then k' :: rest
    else k' :: natInsertSorted k rest

/-- The grouping step of `TarjanScc::run` (lines 117-122): bucket the indices
`0, …, n-1` by their final `low` value; buckets are emitted in ascending key
order, each bucket listing its indices in ascending order (they are pushed in
index order). -/
def tarjanGroups (g : List (List Nat)) (s : TarjanSt) : List (List Nat) :=
  let n := g.length
  let keys := ((List.range n).map s.low).foldl (fun acc k => natInsertSorted k acc) []
  keys.map (fun key => (List.range n).filter (fun i => s.low i = key))

/-- `TarjanScc::run` under a poison sequence `p`. -/
def tarjanRunP (g : List (List Nat)) (p : Nat → Bool) :
    Except Unit (List (List Nat)) :=
  match runLoop g p (List.range g.length) initTarjanSt 0 with
  | Except.error _ => Except.error ()
  | Except.ok (s, _) => Except.ok (tarjanGroups g s)

/-- `TarjanScc::run` with a never-poisoned token. -/
def tarjanRun (g : List (List Nat)) : List (List Nat) :=
  tarjanGroups g (runLoopPure g (List.range g.length) initTarjanSt 0).1

/-- The nodes-relation loop of `StronglyConnectedComponent::run`
(lines 63-74): emit each node value not yet in `inv_indices` with the next
fresh group id, recording it so that a duplicate is not emitted twice.  Only
the key set of `inv_indices` matters (values are `usize::MAX` sentinels). -/
def processNodes {α : Type} [DecidableEq α] : List α → Nat → List α → List (α × Nat)
  | _, _, [] => []
  | inv, counter, n :: rest =>
    if n ∈ inv then processNodes inv counter rest
    else (n, counter) :: processNodes (n :: inv) (counter + 1) rest

/-- The main output loop of `StronglyConnectedComponent::run` (lines 53-59):
for each group (with its `enumerate()` index as group id) and each member
index, emit `(indices[idx], grp_id)`. -/
def sccMainOut {α : Type} (indices : List α) (dflt : α) (groups : List (List Nat)) :
    List (α × Nat) :=
  groups.enum.flatMap (fun gc => gc.2.map (fun idx => (indices.getD idx dflt, gc.1)))

/-- `StronglyConnectedComponent::run` (lines 41-77).  The preprocessing
`convert_edge_to_graph` is not part of the sample; its outputs are taken as
inputs here: the adjacency list `g`, the index-to-value table `indices`
(whose entries are exactly the keys of `inv_indices`), and optionally the
first columns of the nodes relation.  On a cancelled Tarjan run the error
propagates (`?`) before anything is emitted. -/
def sccRunP {α : Type} [DecidableEq α] (g : List (List Nat)) (indices : List α)
    (dflt : α) (nodes : Option (List α)) (p : Nat → Bool) :
    Except Unit (List (α × Nat)) :=
  match tarjanRunP g p with
  | Except.error _ => Except.error ()
  | Except.ok groups =>
    let main := sccMainOut indices dflt groups
    match nodes with
    | none => Except.ok main
    | some ns => Except.ok (main ++ processNodes indices groups.length ns)

/-! ## Concrete fixtures used by witnesses and counterexamples -/

/-- A concrete oracle environment over `Val := Nat`: the database returns an
empty row set, JSON parsing yields `1`, files are empty, every external call
succeeds. -/
def trivEnv : ReplEnv Nat where
  runScript := fun _ _ => Except.ok ⟨[], []⟩
  evalExprs := fun _ _ => Except.ok []
  parseJson := fun _ => some 1
  readFile := fun _ => Except.ok []
  httpGet := fun _ => Except.ok []
  importRel := fun _ => Except.ok ()
  backupDb := fun _ => Except.ok ()
  restoreDb := fun _ => Except.ok ()

/-- The user variable `?a`. -/
def kwA : Keyword := "?a".toList

/-- The user variable `?b`. -/
def kwB : Keyword := "?b".toList

/-- The user variable `?x`. -/
def kwX : Keyword := "?x".toList

/-- The predicate name `edge`. -/
def kwEdge : Keyword := "edge".toList

/-! ## Claim theorems -/

/-- C9: the default implementation of `StoreTx::batch_put` produces exactly
the same resulting transaction state and result value as calling `put` once
per pair in iterator order, stopping at the first error, which is
propagated. -/
theorem batchPut_refines_repeated_put {σ ε α β : Type}
    (put : σ → α → β → Except ε σ) (s : σ) (data : List (Except ε (α × β))) :
    batchPut put s data = specRepeatedPut put s data := by
  induction data generalizing s with
  | nil => rfl
  | cons item rest ih =>
    cases item with
    | error e => rfl
    | ok kv =>
      obtain ⟨k, v⟩ := kv
      cases hps : put s k v with
      | error e => simp [batchPut, specRepeatedPut, Except.bind, hps]
      | ok s2 => simp [batchPut, specRepeatedPut, Except.bind, hps, ih s2]

/-- C10: an input line beginning with `%` whose command word is none of the
ten recognized commands is not an unknown-command error: `process_line`
hands the whole trimmed line, `%` included, to `db.run_script` with the
current params and processes the result like an ordinary script. -/
theorem unknown_percent_command_runs_script {Val : Type} (env : ReplEnv Val)
    (st : ReplState Val) (rawLine rest op payload : Str)
    (hline : trimStr rawLine = '%' :: rest)
    (hsplit : splitOnceWs (trimStr rest) = (op, payload))
    (hEval : op ≠ "eval".toList) (hSet : op ≠ "set".toList)
    (hUnset : op ≠ "unset".toList) (hClear : op ≠ "clear".toList)
    (hParams : op ≠ "params".toList) (hBackup : op ≠ "backup".toList)
    (hRun : op ≠ "run".toList) (hRestore : op ≠ "restore".toList)
    (hSave : op ≠ "save".toList) (hImport : op ≠ "import".toList) :
    processLine env rawLine st = runScriptBranch env (trimStr rawLine) st := by
  unfold processLine
  rw [hline]
  simp only [hsplit, reduceIte]
  unfold dispatchCmd
  simp only [if_neg hEval, if_neg hSet, if_neg hUnset, if_neg hClear, if_neg hParams,
    if_neg hBackup, if_neg hRun, if_neg hRestore, if_neg hSave, if_neg hImport]

/-- Witness for C10 at the concrete line `%foo bar`. -/
theorem unknown_percent_command_runs_script_witness :
    processLine trivEnv ("%foo bar".toList) ⟨[], none⟩ =
      runScriptBranch trivEnv (trimStr ("%foo bar".toList)) ⟨[], none⟩ :=
  unknown_percent_command_runs_script trivEnv ⟨[], none⟩ ("%foo bar".toList)
    ("foo bar".toList) ("foo".toList) ("bar".toList) (by decide) (by decide)
    (by decide) (by decide) (by decide) (by decide) (by decide) (by decide)
    (by decide) (by decide) (by decide) (by decide)

/-- C8 (code bug): `%save` with an empty PATH does *not* clear a pending
save.  With `save_next = Some("o.json")` armed, processing `%save` leaves
`save_next` armed (while the source prints "Next result will NOT be saved"),
and the next query result is persisted to the file instead of printed. -/
theorem save_empty_path_leaves_pending_save :
    processLine trivEnv ("%save".toList) ⟨[], some ("o.json".toList)⟩ =
      Except.ok (⟨[], some ("o.json".toList)⟩, [ReplEff.info]) ∧
    processLine trivEnv ("q".toList) ⟨[], some ("o.json".toList)⟩ =
      Except.ok (⟨[], none⟩, [ReplEff.fileSave ("o.json".toList) ⟨[], []⟩]) := by
  constructor <;> rfl

/-- C7 counterexample: with the key already present, `%set a 1` followed by
`%unset a` does not restore the params map — the original binding
`("a", 0)` is lost. -/
theorem set_unset_counterexample :
    processLine trivEnv ("%set a 1".toList) ⟨[("a".toList, 0)], none⟩ =
      Except.ok (⟨[("a".toList, 1)], none⟩, []) ∧
    processLine trivEnv ("%unset a".toList) ⟨[("a".toList, 1)], none⟩ =
      Except.ok (⟨[], none⟩, []) ∧
    (⟨[], none⟩ : ReplState Nat) ≠ ⟨[("a".toList, 0)], none⟩ := by
  exact ⟨rfl, rfl, by decide⟩

/-- Removing a key that was just inserted into a map not containing it
returns the inserted value and the original map (`BTreeMap` model). -/
theorem mapRemove_mapInsert_of_lookup_none {α : Type} (k : Str) (v : α)
    (m : List (Str × α)) (h : mapLookup k m = none) :
    mapRemove k (mapInsert k v m) = (some v, m) := by
  induction m with
  | nil => simp [mapInsert, mapRemove]
  | cons kv rest ih =>
    obtain ⟨k', v'⟩ := kv
    have hne : k ≠ k' := by
      intro hkk
      simp [mapLookup, hkk] at h
    have hrest : mapLookup k rest = none := by
      simpa [mapLookup, hne] using h
    by_cases hlt : ltStr k k' = true
    · simp [mapInsert, hlt, mapRemove]
    · simp only [mapInsert, hlt, if_neg hne, Bool.false_eq_true, if_false]
      simp [mapRemove, hne, ih hrest]

/-- The final REPL state after processing two lines in sequence (`none` when
either line fails). -/
def afterTwoLines {Val : Type} (env : ReplEnv Val) (l1 l2 : Str)
    (st : ReplState Val) : Option (ReplState Val) :=
  match processLine env l1 st with
  | Except.error _ => none
  | Except.ok (st1, _) =>
    match processLine env l2 st1 with
    | Except.error _ => none
    | Except.ok (st2, _) => some st2

/-- C7 (amended): provided the key `K` is *not* already present in the params
map, `%set K V` followed by `%unset K` leaves the REPL state (in particular
the params map) unchanged. -/
theorem set_unset_roundtrip_of_fresh_key {Val : Type} (env : ReplEnv Val)
    (st : ReplState Val) (l1 l2 r1 r2 pl1 pl2 K vstr : Str) (v : Val)
    (hl1 : trimStr l1 = '%' :: r1)
    (hs1 : splitOnceWs (trimStr r1) = ("set".toList, pl1))
    (hp : splitOnceWsOpt (trimStr pl1) = some (K, vstr))
    (hjson : env.parseJson vstr = some v)
    (hl2 : trimStr l2 = '%' :: r2)
    (hs2 : splitOnceWs (trimStr r2) = ("unset".toList, pl2))
    (hk2 : trimStr pl2 = K)
    (hfresh : mapLookup K st.params = none) :
    afterTwoLines env l1 l2 st = some st := by
  have h1 : processLine env l1 st =
      Except.ok ({ st with params := mapInsert K v st.params }, []) := by
    unfold processLine
    rw [hl1]
    simp only [reduceIte]
    unfold dispatchCmd
    rw [hs1]
    simp [hp, hjson]
  have h2 : processLine env l2 { st with params := mapInsert K v st.params } =
      Except.ok (st, []) := by
    unfold processLine
    rw [hl2]
    simp only [reduceIte]
    unfold dispatchCmd
    rw [hs2]
    simp only [hk2]
    have hrem := mapRemove_mapInsert_of_lookup_none K v st.params hfresh
    simp [hrem]
  simp only [afterTwoLines, h1, h2]

/-- Witness for C7's amended claim: a fresh key `b` over an empty params
map. -/
theorem set_unset_roundtrip_of_fresh_key_witness :
    afterTwoLines trivEnv ("%set b 1".toList) ("%unset b".toList)
      ⟨[], none⟩ = some ⟨[], none⟩ :=
  set_unset_roundtrip_of_fresh_key trivEnv ⟨[], none⟩
    ("%set b 1".toList) ("%unset b".toList) ("set b 1".toList)
    ("unset b".toList) ("b 1".toList) ("b".toList) ("b".toList)
    ("1".toList) 1 (by decide) (by decide) (by decide) rfl (by decide)
    (by decide) (by decide) rfl

/-- The fresh group ids handed out by the nodes loop are consecutive,
starting at the initial counter value. -/
theorem processNodes_map_snd {α : Type} [DecidableEq α] :
    ∀ (nodes inv : List α) (K : Nat),
      (processNodes inv K nodes).map Prod.snd =
        List.range' K (processNodes inv K nodes).length
  | [], _, _ => rfl
  | n :: rest, inv, K => by
    by_cases h : n ∈ inv
    · simp only [processNodes, if_pos h]
      exact processNodes_map_snd rest inv K
    · simp only [processNodes, if_neg h, List.map_cons, List.length_cons, List.range']
      exact congrArg (K :: ·) (processNodes_map_snd rest (n :: inv) (K + 1))

/-- Emission counts of the nodes loop: a value already known to the edge
graph is never emitted; a new value is emitted exactly once even if it
occurs several times in the nodes relation. -/
theorem processNodes_count {α : Type} [DecidableEq α] :
    ∀ (nodes inv : List α) (K : Nat) (a : α),
      ((processNodes inv K nodes).map Prod.fst).count a =
        if a ∈ inv then 0 else if a ∈ nodes then 1 else 0
  | [], inv, K, a => by simp [processNodes]
  | n :: rest, inv, K, a => by
    by_cases h : n ∈ inv
    · rw [processNodes, if_pos h, processNodes_count rest inv K a]
      by_cases ha : a ∈ inv
      · simp [ha]
      · have han : a ≠ n := fun he => ha (he ▸ h)
        simp [ha, han]
    · rw [processNodes, if_neg h]
      by_cases han : a = n
      · subst han
        have : a ∈ a :: inv := List.mem_cons_self a inv
        simp [List.count_cons, processNodes_count rest (a :: inv) (K + 1) a, this, h]
      · simp only [List.map_cons, List.count_cons, if_neg han,
          processNodes_count rest (n :: inv) (K + 1) a]
        have hmem : (a ∈ n :: inv) ↔ (a ∈ inv) := by simp [han]
        have hmem2 : (a ∈ n :: rest) ↔ (a ∈ rest) := by simp [han]
        simp [hmem, hmem2, Ne.symm han]

/-- The check counter of the uncancelled root loop never decreases. -/
theorem runLoopPure_checks_le (g : List (List Nat)) :
    ∀ (l : List Nat) (s : TarjanSt) (c : Nat), c ≤ (runLoopPure g l s c).2 := by
  intro l
  induction l with
  | nil => intro s c; exact le_refl c
  | cons i is ih =>
    intro s c
    rw [runLoopPure]
    by_cases hids : (s.ids i).isNone
    · rw [if_pos hids]
      exact le_trans (Nat.le_succ c) (ih _ _)
    · rw [if_neg hids]
      exact ih s c

/-- With a never-poisoned token the root loop of `TarjanScc::run` succeeds
and computes exactly the pure loop's state and check count. -/
theorem runLoop_no_poison (g : List (List Nat)) :
    ∀ (l : List Nat) (s : TarjanSt) (c : Nat),
      runLoop g (fun _ => false) l s c = Except.ok (runLoopPure g l s c) := by
  intro l
  induction l with
  | nil => intro s c; rfl
  | cons i is ih =>
    intro s c
    rw [runLoop, runLoopPure]
    by_cases hids : (s.ids i).isNone
    · rw [if_pos hids, if_pos hids]
      simpa using ih (dfsF g g.length s i) (c + 1)
    · rw [if_neg hids, if_neg hids]
      exact ih s c

/-- The root loop aborts under poison sequence `p` exactly when `p` answers
`true` at one of the checks the complete run would perform. -/
theorem runLoop_error_iff (g : List (List Nat)) (p : Nat → Bool) :
    ∀ (l : List Nat) (s : TarjanSt) (c : Nat),
      (runLoop g p l s c = Except.error ()) ↔
        ∃ k, c ≤ k ∧ k < (runLoopPure g l s c).2 ∧ p k = true := by
  intro l
  induction l with
  | nil =>
    intro s c
    constructor
    · intro hcon; cases hcon
    · rintro ⟨k, hk1, hk2, _⟩
      exact absurd hk2 (by simp [runLoopPure]; omega)
  | cons i is ih =>
    intro s c
    rw [runLoop, runLoopPure]
    by_cases hids : (s.ids i).isNone
    · rw [if_pos hids, if_pos hids]
      by_cases hp : p c = true
      · rw [if_pos hp]
        have hx : c < (runLoopPure g is (dfsF g g.length s i) (c + 1)).2 :=
          Nat.lt_of_lt_of_le (Nat.lt_succ_self c)
            (runLoopPure_checks_le g is (dfsF g g.length s i) (c + 1))
        exact ⟨fun _ => ⟨c, le_refl c, hx, hp⟩, fun _ => rfl⟩
      · rw [if_neg hp, ih]
        constructor
        · rintro ⟨k, hk1, hk2, hk3⟩
          exact ⟨k, le_trans (Nat.le_succ c) hk1, hk2, hk3⟩
        · rintro ⟨k, hk1, hk2, hk3⟩
          refine ⟨k, ?_, hk2, hk3⟩
          rcases Nat.eq_or_lt_of_le hk1 with rfl | hlt
          · exact absurd hk3 hp
          · exact hlt
    · rw [if_neg hids, if_neg hids]
      exact ih s c

/-- C6: `TarjanScc::run` consults the poison token once after each top-level
DFS root's traversal, and returns *Cancelled* iff the token was poisoned at
one of those check points; a cancelled run makes
`StronglyConnectedComponent::run` propagate the error before emitting any
tuple. -/
theorem tarjan_cancellation (g : List (List Nat)) (p : Nat → Bool) :
    ((tarjanRunP g p = Except.error ()) ↔
      ∃ k, k < checksTotal g ∧ p k = true) ∧
    (∀ {α : Type} [DecidableEq α] (indices : List α) (dflt : α)
      (nodes : Option (List α)), tarjanRunP g p = Except.error () →
        sccRunP g indices dflt nodes p = Except.error ()) := by
  constructor
  · have hiff := runLoop_error_iff g p (List.range g.length) initTarjanSt 0
    unfold tarjanRunP
    cases hrl : runLoop g p (List.range g.length) initTarjanSt 0 with
    | error u =>
      cases u
      rw [hrl] at hiff
      obtain ⟨k, _, hk2, hk3⟩ := hiff.mp rfl
      exact ⟨fun _ => ⟨k, hk2, hk3⟩, fun _ => rfl⟩
    | ok v =>
      rw [hrl] at hiff
      constructor
      · intro hcon; cases hcon
      · rintro ⟨k, hk2, hk3⟩
        exact absurd (hiff.mpr ⟨k, Nat.zero_le k, hk2, hk3⟩) (by simp)
  · intro α _ indices dflt nodes herr
    unfold sccRunP
    rw [herr]

/-- Witness for C6: a poisoned token cancels the two-node run and the SCC
operator emits nothing. -/
theorem tarjan_cancellation_witness :
    sccRunP [[1], [0]] [5, 6] 0 none (fun _ => true) = Except.error () :=
  (tarjan_cancellation [[1], [0]] (fun _ => true)).2 [5, 6] 0 none (by rfl)

/-- `TarjanScc::run` with a never-poisoned token returns its groups. -/
theorem tarjanRunP_no_poison (g : List (List Nat)) :
    tarjanRunP g (fun _ => false) = Except.ok (tarjanRun g) := by
  unfold tarjanRunP tarjanRun
  rw [runLoop_no_poison g (List.range g.length) initTarjanSt 0]

/-- C5: with a nodes relation present, every node value not in the
edge-induced graph is emitted exactly once (values already in the edge set
are not re-emitted), and the fresh group ids are exactly
`K, K + 1, …` in emission order — dense, monotonically increasing and
pairwise distinct beyond the `K` component ids. -/
theorem scc_fresh_node_ids {α : Type} [DecidableEq α] (inv : List α) (K : Nat)
    (nodes : List α) (g : List (List Nat)) (indices : List α) (dflt : α) :
    (processNodes inv K nodes).map Prod.snd =
      List.range' K (processNodes inv K nodes).length ∧
    (∀ a : α, ((processNodes inv K nodes).map Prod.fst).count a =
      if a ∈ inv then 0 else if a ∈ nodes then 1 else 0) ∧
    sccRunP g indices dflt (some nodes) (fun _ => false) =
      Except.ok (sccMainOut indices dflt (tarjanRun g) ++
        processNodes indices (tarjanRun g).length nodes) := by
  refine ⟨processNodes_map_snd nodes inv K,
    fun a => processNodes_count nodes inv K a, ?_⟩
  unfold sccRunP
  rw [tarjanRunP_no_poison g]

/-- C2 (code bug): when the post-elimination binding set differs from
`ret_vars_set`, `compile_rule_body` reports `UnsafeUnboundVars` with
`cur_ret_set.sub(&cur_ret_set)` — the empty set — although the difference
against the requested output set is non-empty (body `?attr(?a, ?b)` with
requested output `[?x]`). -/
theorem unsafe_unbound_vars_reports_empty_set :
    compileRuleBody [Atom.attrTriple ⟨0, CTerm.var kwA, CTerm.var kwB⟩] 0 [] [kwX] =
      CompRes.err (QueryCompilationError.unsafeUnboundVars []) ∧
    kwSub (kwSetOf [kwA, kwB]) (kwSetOf [kwX]) = [kwA, kwB] := by
  exact ⟨by decide, by decide⟩


/-- Splitting the clause loop at a list append. -/
theorem compileClauses_append (vld : Nat) (stores : List (Keyword × Nat × Nat)) :
    ∀ (l1 l2 : List Atom) (st : CState),
      compileClauses vld stores st (l1 ++ l2) =
        match compileClauses vld stores st l1 with
        | CompRes.ok st' => compileClauses vld stores st' l2
        | CompRes.err e => CompRes.err e
        | CompRes.panicked => CompRes.panicked
  | [], l2, st => rfl
  | cl :: l1, l2, st => by
    rw [List.cons_append]
    simp only [compileClauses]
    cases stepClause vld stores st cl with
    | ok st' => exact compileClauses_append vld stores l1 l2 st'
    | err e => rfl
    | panicked => rfl

/-- C3 counterexample: on a self-triple `(Var ?a, Var ?a)` the compiler does
not return a `LogicError` — it panics (`unimplemented!()`). -/
theorem self_triple_counterexample :
    compileRuleBody [Atom.attrTriple ⟨0, CTerm.var kwA, CTerm.var kwA⟩] 0 [] [kwA] =
      CompRes.panicked := by
  decide

/-- C3 (amended): a rule body whose prefix compiles fine and which then hits
an `AttrTriple` atom whose entity and value are the same variable makes
`compile_rule_body` abort with the `unimplemented!()` panic — there is no
silent deduplication, but no `LogicError` result either. -/
theorem self_triple_panics (pre rest : List Atom) (vld : Nat)
    (stores : List (Keyword × Nat × Nat)) (retVars : List Keyword)
    (attr : Nat) (k : Keyword) (stp : CState)
    (h : compileClauses vld stores initCState pre = CompRes.ok stp) :
    compileRuleBody
        (pre ++ Atom.attrTriple ⟨attr, CTerm.var k, CTerm.var k⟩ :: rest)
        vld stores retVars = CompRes.panicked := by
  have hstep : stepClause vld stores stp
      (Atom.attrTriple ⟨attr, CTerm.var k, CTerm.var k⟩) = CompRes.panicked := by
    simp [stepClause]
  unfold compileRuleBody
  rw [compileClauses_append vld stores pre _ initCState, h]
  simp only [compileClauses, hstep]

/-- Witness for C3's amended claim at a concrete self-triple body. -/
theorem self_triple_panics_witness :
    compileRuleBody [Atom.attrTriple ⟨0, CTerm.var kwB, CTerm.var kwB⟩] 0 [] [kwB] =
      CompRes.panicked :=
  self_triple_panics [] [] 0 [] [kwB] 0 kwB initCState rfl

/-- Generated temporaries carry the reserved `*` prefix. -/
theorem genTempKw_isTemp (n : Nat) : isTempKw (genTempKw n) = true := by
  simp [genTempKw, isTempKw]

/-- Membership in a `BTreeSet` insertion. -/
theorem kwInsert_mem (x v : Keyword) :
    ∀ l : List Keyword, x ∈ kwInsert v l ↔ x = v ∨ x ∈ l
  | [] => by simp [kwInsert]
  | k' :: rest => by
    by_cases hlt : ltStr v k' = true
    · simp [kwInsert, hlt]
    · by_cases heq : v = k'
      · subst heq
        simp only [kwInsert, hlt, Bool.false_eq_true, if_false, if_pos rfl]
        constructor
        · exact fun h => Or.inr h
        · rintro (rfl | h)
          · exact List.mem_cons_self _ _
          · exact h
      · simp only [kwInsert, hlt, Bool.false_eq_true, if_false, if_neg heq,
          List.mem_cons, kwInsert_mem x v rest]
        tauto

/-- `eliminate_temp_vars` succeeds exactly on plans whose filters are all
safe. -/
theorem elimCheck_ok_iff :
    ∀ r : Relation, (r.elimCheck = Except.ok ()) ↔ r.filtersOk = true
  | Relation.unit => by simp [Relation.elimCheck, Relation.filtersOk]
  | Relation.singlet _ _ => by simp [Relation.elimCheck, Relation.filtersOk]
  | Relation.triple _ _ _ _ => by simp [Relation.elimCheck, Relation.filtersOk]
  | Relation.derived _ _ => by simp [Relation.elimCheck, Relation.filtersOk]
  | Relation.join l r _ _ => by
    simp only [Relation.elimCheck, Relation.filtersOk, Bool.and_eq_true,
      ← elimCheck_ok_iff l, ← elimCheck_ok_iff r]
    cases hl : l.elimCheck with
    | error e => simp [Except.bind, hl]
    | ok u => cases u; cases hr : r.elimCheck <;> simp [Except.bind, hl, hr]
  | Relation.cartesian l r => by
    simp only [Relation.elimCheck, Relation.filtersOk, Bool.and_eq_true,
      ← elimCheck_ok_iff l, ← elimCheck_ok_iff r]
    cases hl : l.elimCheck with
    | error e => simp [Except.bind, hl]
    | ok u => cases u; cases hr : r.elimCheck <;> simp [Except.bind, hl, hr]
  | Relation.reorder child _ => by
    simpa only [Relation.elimCheck, Relation.filtersOk] using elimCheck_ok_iff child
  | Relation.filter child e => by
    simp only [Relation.elimCheck, Relation.filtersOk, Bool.and_eq_true,
      ← elimCheck_ok_iff child]
    cases hc : child.elimCheck with
    | error er => simp [Except.bind, hc]
    | ok u =>
      cases u
      by_cases hall : (e.vars.all fun v => decide (v ∈ child.bindings)) = true <;>
        simp [Except.bind, hc, hall]

/-- `eliminate_temp_vars` can only fail with *UnsafeBindingInPredicate*. -/
theorem elimCheck_err_shape :
    ∀ (r : Relation) (er : QueryCompilationError), r.elimCheck = Except.error er →
      ∃ pe s, er = QueryCompilationError.unsafeBindingInPredicate pe s
  | Relation.unit, er => by simp [Relation.elimCheck]
  | Relation.singlet _ _, er => by simp [Relation.elimCheck]
  | Relation.triple _ _ _ _, er => by simp [Relation.elimCheck]
  | Relation.derived _ _, er => by simp [Relation.elimCheck]
  | Relation.join l r _ _, er => by
    simp only [Relation.elimCheck]
    cases hl : l.elimCheck with
    | error e =>
      intro h
      simp only [Except.bind] at h
      cases h
      exact elimCheck_err_shape l er hl
    | ok u =>
      cases u
      intro h
      simp only [Except.bind] at h
      exact elimCheck_err_shape r er h
  | Relation.cartesian l r, er => by
    simp only [Relation.elimCheck]
    cases hl : l.elimCheck with
    | error e =>
      intro h
      simp only [Except.bind] at h
      cases h
      exact elimCheck_err_shape l er hl
    | ok u =>
      cases u
      intro h
      simp only [Except.bind] at h
      exact elimCheck_err_shape r er h
  | Relation.reorder child _, er => by
    simp only [Relation.elimCheck]
    exact elimCheck_err_shape child er
  | Relation.filter child e, er => by
    simp only [Relation.elimCheck]
    cases hc : child.elimCheck with
    | error e2 =>
      intro h
      simp only [Except.bind] at h
      cases h
      exact elimCheck_err_shape child er hc
    | ok u =>
      cases u
      intro h
      simp only [Except.bind] at h
      by_cases hall : (e.vars.all fun v => decide (v ∈ child.bindings)) = true
      · rw [if_pos hall] at h
        cases h
      · rw [if_neg hall] at h
        cases h
        exact ⟨_, _, rfl⟩

/-- A non-temporary keyword is never a generated temporary. -/
theorem ne_genTempKw (k : Keyword) (hk : isTempKw k = false) (n : Nat) :
    k ≠ genTempKw n := by
  intro he
  rw [he, genTempKw_isTemp] at hk
  cases hk

/-- Only `Relation.unit` satisfies `is_unit`. -/
theorem isUnit_eq_unit : ∀ r : Relation, r.isUnit = true → r = Relation.unit
  | Relation.unit, _ => rfl

/-- `right_vars` only ever grows during the rule-argument loop. -/
theorem ruleArgsLoop_rv_mono :
    ∀ (args : List (CTerm DVal)) (acc : RArgs) (x : Keyword),
      x ∈ acc.rv → x ∈ (ruleArgsLoop args acc).rv
  | [], _, _, hx => hx
  | CTerm.var v :: rest, acc, x, hx => by
    simp only [ruleArgsLoop]
    by_cases hv : v ∈ acc.seen
    · rw [if_pos hv]
      exact ruleArgsLoop_rv_mono rest _ x (by simp [hx])
    · rw [if_neg hv]
      exact ruleArgsLoop_rv_mono rest _ x (by simp [hx])
  | CTerm.const c :: rest, acc, x, hx => by
    simp only [ruleArgsLoop]
    exact ruleArgsLoop_rv_mono rest _ x (by simp [hx])
  termination_by args => args.length

/-- All `temp_left_bindings` produced by the rule-argument loop are
generated temporaries. -/
theorem ruleArgsLoop_tlb_temp :
    ∀ (args : List (CTerm DVal)) (acc : RArgs) (x : Keyword),
      x ∈ (ruleArgsLoop args acc).tlb → x ∈ acc.tlb ∨ isTempKw x = true
  | [], _, _, hx => Or.inl hx
  | CTerm.var v :: rest, acc, x, hx => by
    simp only [ruleArgsLoop] at hx
    by_cases hv : v ∈ acc.seen
    · rw [if_pos hv] at hx
      have h2 := ruleArgsLoop_tlb_temp rest _ x hx
      exact h2
    · rw [if_neg hv] at hx
      have h2 := ruleArgsLoop_tlb_temp rest _ x hx
      exact h2
  | CTerm.const c :: rest, acc, x, hx => by
    simp only [ruleArgsLoop] at hx
    rcases ruleArgsLoop_tlb_temp rest _ x hx with h | h
    · simp only [List.mem_append, List.mem_singleton] at h
      rcases h with h | rfl
      · exact Or.inl h
      · exact Or.inr (genTempKw_isTemp _)
    · exact Or.inr h
  termination_by args => args.length

/-- Non-temporary membership in `seen` after the rule-argument loop: exactly
the old `seen` plus the freshly claimed `right_vars`. -/
theorem ruleArgsLoop_seen_iff :
    ∀ (args : List (CTerm DVal)) (acc : RArgs),
      (∀ k : Keyword, isTempKw k = false → k ∈ acc.rv → k ∈ acc.seen) →
      ∀ k : Keyword, isTempKw k = false →
        (k ∈ (ruleArgsLoop args acc).seen ↔
          k ∈ acc.seen ∨ k ∈ (ruleArgsLoop args acc).rv)
  | [], acc, hpre, k, hk => by
    rw [ruleArgsLoop]
    exact ⟨Or.inl, fun h => h.elim id (hpre k hk)⟩
  | CTerm.var v :: rest, acc, hpre, k, hk => by
    simp only [ruleArgsLoop]
    by_cases hv : v ∈ acc.seen
    · rw [if_pos hv]
      refine ruleArgsLoop_seen_iff rest _ ?_ k hk
      intro k' hk' hmem
      simp only [List.mem_append, List.mem_singleton] at hmem
      rcases hmem with h | rfl
      · exact hpre k' hk' h
      · exact absurd hk' (by simp [genTempKw_isTemp])
    · rw [if_neg hv]
      have hmain := ruleArgsLoop_seen_iff rest
        { acc with rv := acc.rv ++ [v], seen := kwInsert v acc.seen }
        (by
          intro k' hk' hmem
          simp only [List.mem_append, List.mem_singleton] at hmem
          rcases hmem with h | rfl
          · exact (kwInsert_mem k' v acc.seen).mpr (Or.inr (hpre k' hk' h))
          · exact (kwInsert_mem k' k' acc.seen).mpr (Or.inl rfl)) k hk
      rw [hmain]
      have hvrv : v ∈ (ruleArgsLoop rest
          { acc with rv := acc.rv ++ [v], seen := kwInsert v acc.seen }).rv :=
        ruleArgsLoop_rv_mono rest _ v (by simp)
      rw [kwInsert_mem]
      constructor
      · rintro ((rfl | h) | h)
        · exact Or.inr hvrv
        · exact Or.inl h
        · exact Or.inr h
      · rintro (h | h)
        · exact Or.inl (Or.inr h)
        · exact Or.inr h
  | CTerm.const c :: rest, acc, hpre, k, hk => by
    simp only [ruleArgsLoop]
    refine ruleArgsLoop_seen_iff rest _ ?_ k hk
    intro k' hk' hmem
    simp only [List.mem_append, List.mem_singleton] at hmem
    rcases hmem with h | rfl
    · exact hpre k' hk' h
    · exact absurd hk' (by simp [genTempKw_isTemp])
  termination_by args => args.length

/-- In a state whose accumulator is still `Unit`, no non-temporary variable
has been seen. -/
theorem nonTempOk_unit_seen (st : CState) (hin : nonTempOk st)
    (hu : st.ret.isUnit = true) (k : Keyword) (hk : isTempKw k = false) :
    k ∉ st.seen := by
  intro hmem
  have h := (hin k hk).mpr hmem
  rw [isUnit_eq_unit st.ret hu] at h
  simp [Relation.bindings] at h

/-- Every clause-loop step preserves the invariant that the non-temporary
bindings of the accumulator are exactly `seen_variables`. -/
theorem step_nonTempOk (vld : Nat) (stores : List (Keyword × Nat × Nat))
    (st st' : CState) (cl : Atom) (hwf : cl.wfA = true)
    (hstep : stepClause vld stores st cl = CompRes.ok st')
    (hin : nonTempOk st) : nonTempOk st' := by
  cases cl with
  | logical => exact absurd hstep (by simp [stepClause])
  | bindUnify => exact absurd hstep (by simp [stepClause])
  | pred p =>
    simp only [stepClause] at hstep
    cases hstep
    intro k hk
    simpa [Relation.bindings] using hin k hk
  | attrTriple a =>
    obtain ⟨attr, ent, val⟩ := a
    cases ent with
    | const eid =>
      cases val with
      | var vKw =>
        simp only [stepClause] at hstep
        by_cases hv : vKw ∈ st.seen
        · rw [if_pos hv] at hstep
          cases hstep
          intro k hk
          have hne0 := ne_genTempKw k hk st.serial
          have hne1 := ne_genTempKw k hk (st.serial + 1)
          have hne2 := ne_genTempKw k hk (st.serial + 2)
          by_cases hu : st.ret.isUnit
          · have hks := nonTempOk_unit_seen st hin hu k hk
            simp [Relation.bindings, hu, hne0, hne1, hne2, hks]
          · simp only [Relation.bindings, hu, Bool.false_eq_true, if_false,
              List.mem_append, List.mem_cons, List.not_mem_nil, or_false]
            simp only [hin k hk]
            tauto
        · rw [if_neg hv] at hstep
          cases hstep
          intro k hk
          have hne0 := ne_genTempKw k hk st.serial
          have hne1 := ne_genTempKw k hk (st.serial + 1)
          by_cases hu : st.ret.isUnit
          · have hks := nonTempOk_unit_seen st hin hu k hk
            simp [Relation.bindings, hu, hne0, hne1, hks, kwInsert_mem]
          · simp only [Relation.bindings, hu, Bool.false_eq_true, if_false,
              List.mem_append, List.mem_cons, List.not_mem_nil, or_false,
              kwInsert_mem]
            simp only [hin k hk]
            tauto
      | const cval =>
        simp only [stepClause] at hstep
        cases hstep
        intro k hk
        have hne0 := ne_genTempKw k hk st.serial
        have hne1 := ne_genTempKw k hk (st.serial + 1)
        have hne2 := ne_genTempKw k hk (st.serial + 2)
        have hne3 := ne_genTempKw k hk (st.serial + 3)
        by_cases hu : st.ret.isUnit
        · have hks := nonTempOk_unit_seen st hin hu k hk
          simp [Relation.bindings, hu, hne0, hne1, hne2, hne3, hks]
        · simp only [Relation.bindings, hu, Bool.false_eq_true, if_false,
            List.mem_append, List.mem_cons, List.not_mem_nil, or_false]
          simp only [hin k hk]
          tauto
    | var eKw =>
      cases val with
      | var vKw =>
        simp only [stepClause] at hstep
        by_cases he : eKw = vKw
        · rw [if_pos he] at hstep
          cases hstep
        · rw [if_neg he] at hstep
          by_cases h1 : eKw ∈ st.seen
          · simp only [if_pos h1] at hstep
            by_cases h2 : vKw ∈ st.seen
            · simp only [if_pos h2] at hstep
              by_cases hu : st.ret.isUnit
              · exact absurd h1 (nonTempOk_unit_seen st hin hu eKw
                  (by simp [Atom.wfA, CTerm.varNonTemp] at hwf; simp [hwf.1]))
              · simp only [hu, Bool.false_eq_true, if_false] at hstep
                cases hstep
                intro k hk
                have hne0 := ne_genTempKw k hk st.serial
                have hne1 := ne_genTempKw k hk (st.serial + 1)
                simp only [Relation.bindings, List.mem_append, List.mem_cons,
                  List.not_mem_nil, or_false]
                simp only [hin k hk]
                tauto
            · simp only [if_neg h2] at hstep
              by_cases hu : st.ret.isUnit
              · exact absurd h1 (nonTempOk_unit_seen st hin hu eKw
                  (by simp [Atom.wfA, CTerm.varNonTemp] at hwf; simp [hwf.1]))
              · simp only [hu, Bool.false_eq_true, if_false] at hstep
                cases hstep
                intro k hk
                have hne0 := ne_genTempKw k hk st.serial
                simp only [Relation.bindings, List.mem_append, List.mem_cons,
                  List.not_mem_nil, or_false, kwInsert_mem]
                simp only [hin k hk]
                tauto
          · simp only [if_neg h1] at hstep
            by_cases h2 : vKw ∈ kwInsert eKw st.seen
            · simp only [if_pos h2] at hstep
              have h2' : vKw ∈ st.seen := by
                rcases (kwInsert_mem vKw eKw st.seen).mp h2 with h | h
                · exact absurd h.symm he
                · exact h
              by_cases hu : st.ret.isUnit
              · exact absurd h2' (nonTempOk_unit_seen st hin hu vKw
                  (by simp [Atom.wfA, CTerm.varNonTemp] at hwf; simp [hwf.2]))
              · simp only [hu, Bool.false_eq_true, if_false] at hstep
                cases hstep
                intro k hk
                have hne0 := ne_genTempKw k hk st.serial
                simp only [Relation.bindings, List.mem_append, List.mem_cons,
                  List.not_mem_nil, or_false, kwInsert_mem]
                simp only [hin k hk]
                tauto
            · simp only [if_neg h2] at hstep
              by_cases hu : st.ret.isUnit
              · simp only [hu, if_true, eq_self_iff_true] at hstep
                cases hstep
                intro k hk
                have hks := nonTempOk_unit_seen st hin hu k hk
                simp only [Relation.bindings, List.mem_cons, List.not_mem_nil,
                  or_false, kwInsert_mem]
                tauto
              · simp only [hu, Bool.false_eq_true, if_false] at hstep
                cases hstep
                intro k hk
                simp only [Relation.bindings, List.mem_append, List.mem_cons,
                  List.not_mem_nil, or_false, kwInsert_mem]
                simp only [hin k hk]
                tauto
      | const cval =>
        simp only [stepClause] at hstep
        by_cases hv : eKw ∈ st.seen
        · rw [if_pos hv] at hstep
          cases hstep
          intro k hk
          have hne0 := ne_genTempKw k hk st.serial
          have hne1 := ne_genTempKw k hk (st.serial + 1)
          have hne2 := ne_genTempKw k hk (st.serial + 2)
          by_cases hu : st.ret.isUnit
          · have hks := nonTempOk_unit_seen st hin hu k hk
            simp [Relation.bindings, hu, hne0, hne1, hne2, hks]
          · simp only [Relation.bindings, hu, Bool.false_eq_true, if_false,
              List.mem_append, List.mem_cons, List.not_mem_nil, or_false]
            simp only [hin k hk]
            tauto
        · rw [if_neg hv] at hstep
          cases hstep
          intro k hk
          have hne0 := ne_genTempKw k hk st.serial
          have hne1 := ne_genTempKw k hk (st.serial + 1)
          by_cases hu : st.ret.isUnit
          · have hks := nonTempOk_unit_seen st hin hu k hk
            simp [Relation.bindings, hu, hne0, hne1, hks, kwInsert_mem]
          · simp only [Relation.bindings, hu, Bool.false_eq_true, if_false,
              List.mem_append, List.mem_cons, List.not_mem_nil, or_false,
              kwInsert_mem]
            simp only [hin k hk]
            tauto
  | rule r =>
    simp only [stepClause] at hstep
    rcases hsg : storesGet r.name stores with _ | ⟨store, arity⟩
    · rw [hsg] at hstep
      cases hstep
    · rw [hsg] at hstep
      dsimp only at hstep
      by_cases har : arity ≠ r.args.length
      · rw [if_pos har] at hstep
        cases hstep
      · rw [if_neg har] at hstep
        cases hstep
        intro k hk
        have hseen := ruleArgsLoop_seen_iff r.args
          ⟨[], [], [], [], [], st.seen, st.serial⟩ (by intro _ _ h; cases h) k hk
        have htlb : k ∉ (ruleArgsLoop r.args
            ⟨[], [], [], [], [], st.seen, st.serial⟩).tlb := by
          intro hmem
          rcases ruleArgsLoop_tlb_temp r.args _ k hmem with h | h
          · cases h
          · rw [h] at hk; cases hk
        by_cases htlv : (ruleArgsLoop r.args
            ⟨[], [], [], [], [], st.seen, st.serial⟩).tlv.isEmpty
        · simp only [Relation.bindings, htlv, if_true, eq_self_iff_true,
            List.mem_append]
          rw [hseen]
          simp only [hin k hk]
        · simp only [Relation.bindings, htlv, Bool.false_eq_true, if_false,
            List.mem_append]
          rw [hseen]
          simp only [hin k hk]
          tauto

/-- A `Unit` accumulator trivially has safe filters. -/
theorem filtersOk_of_isUnit (r : Relation) (h : r.isUnit = true) :
    r.filtersOk = true := by
  rw [isUnit_eq_unit r h]
  rfl

/-- A clause-loop step keeps all filters safe, provided a `Predicate` clause
only references already-seen variables. -/
theorem step_filtersOk (vld : Nat) (stores : List (Keyword × Nat × Nat))
    (st st' : CState) (cl : Atom) (hwf : cl.wfA = true)
    (hstep : stepClause vld stores st cl = CompRes.ok st')
    (hin : nonTempOk st) (hfo : st.ret.filtersOk = true)
    (hsafe : ∀ p : PExpr, cl = Atom.pred p → ∀ v ∈ p.vars, v ∈ st.seen) :
    st'.ret.filtersOk = true := by
  cases cl with
  | logical => exact absurd hstep (by simp [stepClause])
  | bindUnify => exact absurd hstep (by simp [stepClause])
  | pred p =>
    simp only [stepClause] at hstep
    cases hstep
    simp only [Relation.filtersOk, hfo, Bool.true_and, List.all_eq_true,
      decide_eq_true_eq]
    intro v hv
    have hvt : isTempKw v = false := by
      simp only [Atom.wfA, List.all_eq_true] at hwf
      simpa using hwf v hv
    exact (hin v hvt).mpr (hsafe p rfl v hv)
  | attrTriple a =>
    obtain ⟨attr, ent, val⟩ := a
    cases ent with
    | const eid =>
      cases val with
      | var vKw =>
        simp only [stepClause] at hstep
        by_cases hv : vKw ∈ st.seen
        · rw [if_pos hv] at hstep
          cases hstep
          by_cases hu : st.ret.isUnit <;>
            simp [Relation.filtersOk, hu, hfo]
        · rw [if_neg hv] at hstep
          cases hstep
          by_cases hu : st.ret.isUnit <;>
            simp [Relation.filtersOk, hu, hfo]
      | const cval =>
        simp only [stepClause] at hstep
        cases hstep
        by_cases hu : st.ret.isUnit <;>
          simp [Relation.filtersOk, hu, hfo]
    | var eKw =>
      cases val with
      | var vKw =>
        simp only [stepClause] at hstep
        by_cases he : eKw = vKw
        · rw [if_pos he] at hstep
          cases hstep
        · rw [if_neg he] at hstep
          by_cases h1 : eKw ∈ st.seen
          · simp only [if_pos h1] at hstep
            by_cases h2 : vKw ∈ st.seen
            · simp only [if_pos h2] at hstep
              by_cases hu : st.ret.isUnit
              · simp only [hu, if_true, eq_self_iff_true] at hstep
                cases hstep
                simp [Relation.filtersOk]
              · simp only [hu, Bool.false_eq_true, if_false] at hstep
                cases hstep
                simp [Relation.filtersOk, hfo]
            · simp only [if_neg h2] at hstep
              by_cases hu : st.ret.isUnit
              · simp only [hu, if_true, eq_self_iff_true] at hstep
                cases hstep
                simp [Relation.filtersOk]
              · simp only [hu, Bool.false_eq_true, if_false] at hstep
                cases hstep
                simp [Relation.filtersOk, hfo]
          · simp only [if_neg h1] at hstep
            by_cases h2 : vKw ∈ kwInsert eKw st.seen
            · simp only [if_pos h2] at hstep
              by_cases hu : st.ret.isUnit
              · simp only [hu, if_true, eq_self_iff_true] at hstep
                cases hstep
                simp [Relation.filtersOk]
              · simp only [hu, Bool.false_eq_true, if_false] at hstep
                cases hstep
                simp [Relation.filtersOk, hfo]
            · simp only [if_neg h2] at hstep
              by_cases hu : st.ret.isUnit
              · simp only [hu, if_true, eq_self_iff_true] at hstep
                cases hstep
                simp [Relation.filtersOk]
              · simp only [hu, Bool.false_eq_true, if_false] at hstep
                cases hstep
                simp [Relation.filtersOk, hfo]
      | const cval =>
        simp only [stepClause] at hstep
        by_cases hv : eKw ∈ st.seen
        · rw [if_pos hv] at hstep
          cases hstep
          by_cases hu : st.ret.isUnit <;>
            simp [Relation.filtersOk, hu, hfo]
        · rw [if_neg hv] at hstep
          cases hstep
          by_cases hu : st.ret.isUnit <;>
            simp [Relation.filtersOk, hu, hfo]
  | rule r =>
    simp only [stepClause] at hstep
    rcases hsg : storesGet r.name stores with _ | ⟨store, arity⟩
    · rw [hsg] at hstep
      cases hstep
    · rw [hsg] at hstep
      dsimp only at hstep
      by_cases har : arity ≠ r.args.length
      · rw [if_pos har] at hstep
        cases hstep
      · rw [if_neg har] at hstep
        cases hstep
        by_cases htlv : (ruleArgsLoop r.args
            ⟨[], [], [], [], [], st.seen, st.serial⟩).tlv.isEmpty <;>
          simp [Relation.filtersOk, htlv, hfo]

/-- Once the accumulator contains an unsafe filter, no later clause-loop step
can repair it. -/
theorem step_filtersOk_false (vld : Nat) (stores : List (Keyword × Nat × Nat))
    (st st' : CState) (cl : Atom)
    (hstep : stepClause vld stores st cl = CompRes.ok st')
    (hbad : st.ret.filtersOk = false) : st'.ret.filtersOk = false := by
  have hu : st.ret.isUnit = false := by
    cases h : st.ret.isUnit
    · rfl
    · rw [filtersOk_of_isUnit st.ret h] at hbad
      cases hbad
  cases cl with
  | logical => exact absurd hstep (by simp [stepClause])
  | bindUnify => exact absurd hstep (by simp [stepClause])
  | pred p =>
    simp only [stepClause] at hstep
    cases hstep
    simp [Relation.filtersOk, hbad]
  | attrTriple a =>
    obtain ⟨attr, ent, val⟩ := a
    cases ent with
    | const eid =>
      cases val with
      | var vKw =>
        simp only [stepClause] at hstep
        by_cases hv : vKw ∈ st.seen
        · rw [if_pos hv] at hstep
          cases hstep
          simp [Relation.filtersOk, hu, hbad]
        · rw [if_neg hv] at hstep
          cases hstep
          simp [Relation.filtersOk, hu, hbad]
      | const cval =>
        simp only [stepClause] at hstep
        cases hstep
        simp [Relation.filtersOk, hu, hbad]
    | var eKw =>
      cases val with
      | var vKw =>
        simp only [stepClause] at hstep
        by_cases he : eKw = vKw
        · rw [if_pos he] at hstep
          cases hstep
        · rw [if_neg he] at hstep
          by_cases h1 : eKw ∈ st.seen
          · simp only [if_pos h1] at hstep
            by_cases h2 : vKw ∈ st.seen <;>
              simp only [if_pos, if_neg, h2] at hstep <;>
              (simp only [hu, Bool.false_eq_true, if_false] at hstep;
                cases hstep; simp [Relation.filtersOk, hbad])
          · simp only [if_neg h1] at hstep
            by_cases h2 : vKw ∈ kwInsert eKw st.seen <;>
              simp only [if_pos, if_neg, h2] at hstep <;>
              (simp only [hu, Bool.false_eq_true, if_false] at hstep;
                cases hstep; simp [Relation.filtersOk, hbad])
      | const cval =>
        simp only [stepClause] at hstep
        by_cases hv : eKw ∈ st.seen
        · rw [if_pos hv] at hstep
          cases hstep
          simp [Relation.filtersOk, hu, hbad]
        · rw [if_neg hv] at hstep
          cases hstep
          simp [Relation.filtersOk, hu, hbad]
  | rule r =>
    simp only [stepClause] at hstep
    rcases hsg : storesGet r.name stores with _ | ⟨store, arity⟩
    · rw [hsg] at hstep
      cases hstep
    · rw [hsg] at hstep
      dsimp only at hstep
      by_cases har : arity ≠ r.args.length
      · rw [if_pos har] at hstep
        cases hstep
      · rw [if_neg har] at hstep
        cases hstep
        by_cases htlv : (ruleArgsLoop r.args
            ⟨[], [], [], [], [], st.seen, st.serial⟩).tlv.isEmpty <;>
          simp [Relation.filtersOk, htlv, hbad]

/-- The clause loop preserves the non-temporary-bindings invariant. -/
theorem clauses_nonTempOk (vld : Nat) (stores : List (Keyword × Nat × Nat)) :
    ∀ (clauses : List Atom) (st stF : CState),
      (∀ a ∈ clauses, a.wfA = true) → nonTempOk st →
      compileClauses vld stores st clauses = CompRes.ok stF → nonTempOk stF
  | [], st, stF, _, hin, hcc => by
    cases hcc
    exact hin
  | cl :: rest, st, stF, hwf, hin, hcc => by
    rw [compileClauses] at hcc
    cases hstep : stepClause vld stores st cl with
    | ok st1 =>
      rw [hstep] at hcc
      exact clauses_nonTempOk vld stores rest st1 stF
        (fun a ha => hwf a (List.mem_cons_of_mem cl ha))
        (step_nonTempOk vld stores st st1 cl (hwf cl (List.mem_cons_self cl rest))
          hstep hin) hcc
    | err e => rw [hstep] at hcc; cases hcc
    | panicked => rw [hstep] at hcc; cases hcc

/-- The clause loop cannot repair an unsafe filter. -/
theorem clauses_filtersOk_false (vld : Nat) (stores : List (Keyword × Nat × Nat)) :
    ∀ (clauses : List Atom) (st stF : CState),
      compileClauses vld stores st clauses = CompRes.ok stF →
      st.ret.filtersOk = false → stF.ret.filtersOk = false
  | [], st, stF, hcc, hbad => by
    cases hcc
    exact hbad
  | cl :: rest, st, stF, hcc, hbad => by
    rw [compileClauses] at hcc
    cases hstep : stepClause vld stores st cl with
    | ok st1 =>
      rw [hstep] at hcc
      exact clauses_filtersOk_false vld stores rest st1 stF hcc
        (step_filtersOk_false vld stores st st1 cl hstep hbad)
    | err e => rw [hstep] at hcc; cases hcc
    | panicked => rw [hstep] at hcc; cases hcc

/-- If every `Predicate` clause of the body references only variables seen
at its position, the final accumulator has only safe filters. -/
theorem clauses_filtersOk_true (vld : Nat) (stores : List (Keyword × Nat × Nat)) :
    ∀ (clauses : List Atom) (st stF : CState),
      (∀ a ∈ clauses, a.wfA = true) → nonTempOk st → st.ret.filtersOk = true →
      (∀ (pre : List Atom) (p : PExpr) (rest : List Atom) (stp : CState),
        clauses = pre ++ Atom.pred p :: rest →
        compileClauses vld stores st pre = CompRes.ok stp →
        ∀ v ∈ p.vars, v ∈ stp.seen) →
      compileClauses vld stores st clauses = CompRes.ok stF →
      stF.ret.filtersOk = true
  | [], st, stF, _, _, hfo, _, hcc => by
    cases hcc
    exact hfo
  | cl :: rest, st, stF, hwf, hin, hfo, hsafe, hcc => by
    rw [compileClauses] at hcc
    cases hstep : stepClause vld stores st cl with
    | ok st1 =>
      rw [hstep] at hcc
      have hfo1 : st1.ret.filtersOk = true := by
        refine step_filtersOk vld stores st st1 cl
          (hwf cl (List.mem_cons_self cl rest)) hstep hin hfo ?_
        intro p hp v hv
        exact hsafe [] p rest st (by rw [hp]; rfl) rfl v hv
      refine clauses_filtersOk_true vld stores rest st1 stF
        (fun a ha => hwf a (List.mem_cons_of_mem cl ha))
        (step_nonTempOk vld stores st st1 cl (hwf cl (List.mem_cons_self cl rest))
          hstep hin) hfo1 ?_ hcc
      intro pre p rest' stp hsplit hpre v hv
      refine hsafe (cl :: pre) p rest' stp (by rw [hsplit]; rfl) ?_ v hv
      rw [compileClauses, hstep]
      exact hpre
    | err e => rw [hstep] at hcc; cases hcc
    | panicked => rw [hstep] at hcc; cases hcc

/-- An unsafe `Predicate` clause leaves an unsafe filter in the final
accumulator. -/
theorem unsafe_split_filtersOk_false (vld : Nat)
    (stores : List (Keyword × Nat × Nat)) (pre : List Atom) (p : PExpr)
    (rest : List Atom) (stp stF : CState) (v : Keyword)
    (hwf : ∀ a ∈ pre ++ Atom.pred p :: rest, a.wfA = true)
    (hpre : compileClauses vld stores initCState pre = CompRes.ok stp)
    (hv : v ∈ p.vars) (hvs : v ∉ stp.seen)
    (hcc : compileClauses vld stores initCState (pre ++ Atom.pred p :: rest) =
      CompRes.ok stF) :
    stF.ret.filtersOk = false := by
  have hvt : isTempKw v = false := by
    have hwp := hwf (Atom.pred p) (by simp)
    simp only [Atom.wfA, List.all_eq_true] at hwp
    simpa using hwp v hv
  have hntp : nonTempOk stp :=
    clauses_nonTempOk vld stores pre initCState stp
      (fun a ha => hwf a (List.mem_append_left _ ha))
      (by intro k hk; simp [initCState, Relation.bindings]) hpre
  have hvb : v ∉ stp.ret.bindings := fun hb => hvs ((hntp v hvt).mp hb)
  rw [compileClauses_append vld stores pre _ initCState, hpre] at hcc
  have hstep : stepClause vld stores stp (Atom.pred p) =
      CompRes.ok ⟨stp.ret.filter p, stp.seen, stp.serial⟩ := rfl
  simp only [compileClauses, hstep] at hcc
  refine clauses_filtersOk_false vld stores rest _ stF hcc ?_
  simp only [Relation.filtersOk, Bool.and_eq_false_iff, List.all_eq_true,
    decide_eq_true_eq]
  right
  simp only [List.all_eq_false]
  exact ⟨v, hv, by simpa using hvb⟩

/-- `compile_rule_body` reports *UnsafeBindingInPredicate* exactly when the
final accumulator holds an unsafe filter. -/
theorem compileRuleBody_ubip_iff (clauses : List Atom) (vld : Nat)
    (stores : List (Keyword × Nat × Nat)) (retVars : List Keyword) (stF : CState)
    (hok : compileClauses vld stores initCState clauses = CompRes.ok stF) :
    (∃ e s, compileRuleBody clauses vld stores retVars =
        CompRes.err (QueryCompilationError.unsafeBindingInPredicate e s)) ↔
      stF.ret.filtersOk = false := by
  simp only [compileRuleBody, Relation.eliminateTempVars, hok]
  cases hfo : stF.ret.filtersOk with
  | true =>
    have hel : stF.ret.elimCheck = Except.ok () :=
      (elimCheck_ok_iff stF.ret).mpr hfo
    have hel2 : (stF.ret.cartesian Relation.unit).elimCheck = Except.ok () := by
      rw [(elimCheck_ok_iff _)]
      simp [Relation.filtersOk, hfo]
    constructor
    · rintro ⟨e, s, hres⟩
      simp only [hel] at hres
      split_ifs at hres <;> simp [hel2] at hres
    · intro hcon
      cases hcon
  | false =>
    have hel : ∃ er, stF.ret.elimCheck = Except.error er := by
      cases he : stF.ret.elimCheck with
      | ok u =>
        cases u
        rw [(elimCheck_ok_iff stF.ret).mp he] at hfo
        cases hfo
      | error er => exact ⟨er, rfl⟩
    obtain ⟨er, her⟩ := hel
    obtain ⟨pe, s, rfl⟩ := elimCheck_err_shape stF.ret er her
    simp only [her]
    exact ⟨fun _ => by trivial, fun _ => ⟨pe, s, rfl⟩⟩

/-- C4: for a rule body whose clause loop succeeds, compilation fails with
*UnsafeBindingInPredicate* exactly when some `Predicate` atom references a
variable not bound by the positive atoms before it; a safe `Predicate` atom
is compiled by applying `Filter(ret, expr)`; and the spec's example
`Q(?x) :- edge(?a, ?b), ?x > 0` yields *UnsafeBindingInPredicate*. -/
theorem predicate_unsafe_binding_check (clauses : List Atom) (vld : Nat)
    (stores : List (Keyword × Nat × Nat)) (retVars : List Keyword) (stF : CState)
    (hwf : ∀ a ∈ clauses, a.wfA = true)
    (hok : compileClauses vld stores initCState clauses = CompRes.ok stF) :
    ((∃ e s, compileRuleBody clauses vld stores retVars =
        CompRes.err (QueryCompilationError.unsafeBindingInPredicate e s)) ↔
      (∃ (pre : List Atom) (p : PExpr) (rest : List Atom) (stp : CState),
        clauses = pre ++ Atom.pred p :: rest ∧
        compileClauses vld stores initCState pre = CompRes.ok stp ∧
        ∃ v ∈ p.vars, v ∉ stp.seen)) ∧
    (∀ (st : CState) (p : PExpr),
      stepClause vld stores st (Atom.pred p) =
        CompRes.ok ⟨st.ret.filter p, st.seen, st.serial⟩) ∧
    compileRuleBody [Atom.rule ⟨kwEdge, [CTerm.var kwA, CTerm.var kwB]⟩,
        Atom.pred ⟨[kwX]⟩] 0 [(kwEdge, 7, 2)] [kwX] =
      CompRes.err (QueryCompilationError.unsafeBindingInPredicate ⟨[kwX]⟩ [kwX]) := by
  refine ⟨?_, fun st p => rfl, by decide⟩
  rw [compileRuleBody_ubip_iff clauses vld stores retVars stF hok]
  constructor
  · intro hbad
    by_contra hno
    push_neg at hno
    have hsafe : ∀ (pre : List Atom) (p : PExpr) (rest : List Atom) (stp : CState),
        clauses = pre ++ Atom.pred p :: rest →
        compileClauses vld stores initCState pre = CompRes.ok stp →
        ∀ v ∈ p.vars, v ∈ stp.seen := by
      intro pre p rest stp hs hp v hv
      exact hno pre p rest stp hs hp v hv
    have hgood := clauses_filtersOk_true vld stores clauses initCState stF hwf
      (by intro k hk; simp [initCState, Relation.bindings]) rfl hsafe hok
    rw [hgood] at hbad
    cases hbad
  · rintro ⟨pre, p, rest, stp, hsplit, hpre, v, hv, hvs⟩
    subst hsplit
    exact unsafe_split_filtersOk_false vld stores pre p rest stp stF v hwf hpre
      hv hvs hok

/-- Witness for C4 at the spec's example body. -/
theorem predicate_unsafe_binding_check_witness :
    compileRuleBody [Atom.rule ⟨kwEdge, [CTerm.var kwA, CTerm.var kwB]⟩,
        Atom.pred ⟨[kwX]⟩] 0 [(kwEdge, 7, 2)] [kwX] =
      CompRes.err (QueryCompilationError.unsafeBindingInPredicate ⟨[kwX]⟩ [kwX]) :=
  (predicate_unsafe_binding_check
    [Atom.rule ⟨kwEdge, [CTerm.var kwA, CTerm.var kwB]⟩, Atom.pred ⟨[kwX]⟩] 0
    [(kwEdge, 7, 2)] [kwX]
    ⟨Relation.filter (Relation.join Relation.unit (Relation.derived [kwA, kwB] 7) [] [])
      ⟨[kwX]⟩, [kwA, kwB], 0⟩ (by decide) (by decide)).2.2

/-! ## Tarjan SCC correctness (claim C1)

The graph relations and the master invariant threaded through the DFS.
`ρ` below is the current DFS call path (the "gray" nodes), deepest first;
it is a parameter of the proofs, not of the program. -/

/-- The edge relation of the adjacency-list graph. -/
def EdgeG (g : List (List Nat)) (i j : Nat) : Prop := j ∈ g.getD i []

/-- Reachability: the reflexive-transitive closure of the edge relation. -/
def Reach (g : List (List Nat)) : Nat → Nat → Prop :=
  Relation.ReflTransGen (EdgeG g)

/-- Mutual reachability — membership in the same strongly connected
component. -/
def MutReach (g : List (List Nat)) (i j : Nat) : Prop :=
  Reach g i j ∧ Reach g j i

/-- Well-formed adjacency list: every edge target is a node index. -/
def wfG (g : List (List Nat)) : Prop := ∀ l ∈ g, ∀ x ∈ l, x < g.length

/-- A node has been discovered. -/
def visitedN (s : TarjanSt) (x : Nat) : Prop := s.ids x ≠ none

/-- The discovery id of a node (0 when undiscovered). -/
def idv (s : TarjanSt) (x : Nat) : Nat := (s.ids x).getD 0

/-- The number of undiscovered nodes, the fuel measure of `dfs`. -/
def unvis (g : List (List Nat)) (s : TarjanSt) : Nat :=
  ((List.range g.length).filter (fun i => (s.ids i).isNone)).length

/-- The master invariant of the Tarjan state, relative to the current DFS
call path `ρ` (deepest node first). -/
structure TarjanInv (g : List (List Nat)) (ρ : List Nat) (s : TarjanSt) : Prop where
  idsRange : ∀ x k, s.ids x = some k → 1 ≤ k ∧ k ≤ s.id
  idsInj : ∀ x y k, s.ids x = some k → s.ids y = some k → x = y
  visLt : ∀ x, visitedN s x → x < g.length
  stackVis : ∀ x ∈ s.stack, visitedN s x
  onStackIff : ∀ x, s.onStack x = true ↔ x ∈ s.stack
  stackSorted : s.stack.Pairwise (fun a b => idv s b < idv s a)
  reachUp : ∀ x ∈ s.stack, ∀ y ∈ s.stack, idv s x ≤ idv s y → Reach g x y
  lowLive : ∀ x ∈ s.stack, s.low x ≤ idv s x ∧
    ∃ y ∈ s.stack, idv s y = s.low x ∧ Reach g x y
  lowFrozen : ∀ x ∈ s.stack, x ∉ ρ → s.low x < idv s x
  explored : ∀ x, visitedN s x → x ∉ ρ → ∀ w, EdgeG g x w → visitedN s w
  lowBack : ∀ z ∈ s.stack, z ∉ ρ → ∀ w, EdgeG g z w → w ∈ s.stack →
    s.low z ≤ idv s w
  finComplete : ∀ x, visitedN s x → x ∉ s.stack →
    (∃ r, visitedN s r ∧ r ∉ s.stack ∧ s.low x = idv s r ∧ s.low r = idv s r ∧
      MutReach g x r) ∧
    (∀ y, MutReach g x y → visitedN s y ∧ y ∉ s.stack ∧ s.low y = s.low x)
  pathLive : ∀ p ∈ ρ, p ∈ s.stack
  pathSorted : ρ.Pairwise (fun a b => idv s b < idv s a)

/-- Postcondition of one `dfs` call started at `v` (relative to the caller's
path `ρ`): the invariant is restored, old nodes are untouched, the stack
grew by a block `Δ` of newly discovered nodes whose `low`s dominate `v`'s,
every newly discovered node is reachable from `v` and carries a fresh id,
and at least `v` itself was discovered. -/
structure DfsPost (g : List (List Nat)) (ρ : List Nat) (s s' : TarjanSt)
    (v : Nat) : Prop where
  inv : TarjanInv g ρ s'
  idsOld : ∀ x, visitedN s x → s'.ids x = s.ids x
  idGrow : s.id < s'.id
  lowOldLive : ∀ x ∈ s.stack, s'.low x = s.low x
  lowOldDead : ∀ x, visitedN s x → x ∉ s.stack → s'.low x = s.low x
  deadStay : ∀ x, visitedN s x → x ∉ s.stack → x ∉ s'.stack
  stackBlock : ∃ Δ : List Nat, s'.stack = Δ ++ s.stack ∧
    (∀ z ∈ Δ, ¬visitedN s z) ∧
    (v ∈ s'.stack → v ∈ Δ ∧ ∀ z ∈ Δ, s'.low v ≤ s'.low z) ∧
    (v ∉ s'.stack → Δ = [])
  visGrow : visitedN s' v ∧ ∀ x, visitedN s x → visitedN s' x
  newReach : ∀ x, visitedN s' x → ¬visitedN s x → Reach g v x ∧ s.id < idv s' x
  unvisDec : unvis g s' < unvis g s

/-- Postcondition of the child loop of `dfs(v)` over the edge list `ws`. -/
structure KidsPost (g : List (List Nat)) (ρ : List Nat) (s s2 : TarjanSt)
    (v : Nat) (ws : List Nat) : Prop where
  inv : TarjanInv g (v :: ρ) s2
  idsOld : ∀ x, visitedN s x → s2.ids x = s.ids x
  idGrow : s.id ≤ s2.id
  lowOldLive : ∀ x ∈ s.stack, x ≠ v → s2.low x = s.low x
  lowOldDead : ∀ x, visitedN s x → x ∉ s.stack → s2.low x = s.low x
  deadStay : ∀ x, visitedN s x → x ∉ s.stack → x ∉ s2.stack
  lowV : s2.low v ≤ s.low v
  stackBlock : ∃ Δ : List Nat, s2.stack = Δ ++ s.stack ∧
    (∀ z ∈ Δ, ¬visitedN s z) ∧ (∀ z ∈ Δ, s2.low v ≤ s2.low z)
  visGrow : ∀ x, visitedN s x → visitedN s2 x
  newReach : ∀ x, visitedN s2 x → ¬visitedN s x → Reach g v x ∧ s.id < idv s2 x
  processed : ∀ w ∈ ws, visitedN s2 w ∧ (w ∈ s2.stack → s2.low v ≤ idv s2 w)
  unvisLe : unvis g s2 ≤ unvis g s

/-- Updating a function at an index, read back at the same index. -/
theorem upd_same {β : Type} (f : Nat → β) (i : Nat) (b : β) : upd f i b i = b := by
  simp [upd]

/-- Updating a function at an index leaves other indices unchanged. -/
theorem upd_other {β : Type} (f : Nat → β) (i j : Nat) (b : β) (h : j ≠ i) :
    upd f i b j = f j := by
  simp [upd, h]

/-- A single edge gives reachability. -/
theorem reach_of_edge {g : List (List Nat)} {i j : Nat} (h : EdgeG g i j) :
    Reach g i j :=
  Relation.ReflTransGen.single h

/-- Marking an unvisited node decreases the unvisited count. -/
theorem unvis_enter (g : List (List Nat)) (s : TarjanSt) (v : Nat)
    (hv : ¬visitedN s v) (hlt : v < g.length) :
    unvis g (dfsEnter s v) + 1 = unvis g s := by
  unfold unvis dfsEnter
  simp only [visitedN, ne_eq, not_not] at hv
  have hsplit : ∀ l : List Nat, v ∉ l →
      (l.filter (fun i => (upd s.ids v (some (s.id + 1)) i).isNone)).length =
        (l.filter (fun i => (s.ids i).isNone)).length := by
    intro l hvl
    induction l with
    | nil => rfl
    | cons a l ih =>
      have hav : a ≠ v := fun h => hvl (h ▸ List.mem_cons_self a l)
      have hl : v ∉ l := fun h => hvl (List.mem_cons_of_mem a h)
      simp only [List.filter_cons, upd_other s.ids v a _ hav]
      cases (s.ids a).isNone <;> simp [ih hl]
  have hmem : v ∈ List.range g.length := List.mem_range.mpr hlt
  obtain ⟨l1, l2, hsp⟩ := List.append_of_mem hmem
  have hnd : (List.range g.length).Nodup := List.nodup_range g.length
  rw [hsp] at hnd ⊢
  have hv1 : v ∉ l1 := by
    intro h
    rw [List.nodup_append] at hnd
    exact hnd.2.2 h (List.mem_cons_self v l2)
  have hv2 : v ∉ l2 := by
    rw [List.nodup_append] at hnd
    exact (List.nodup_cons.mp hnd.2.1).1
  simp only [List.filter_append, List.filter_cons, upd_same, hv,
    List.length_append, hsplit l1 hv1, hsplit l2 hv2, Option.isNone_none,
    Option.isNone_some, if_true, if_false, Bool.false_eq_true, List.length_cons]
  omega

/-- States agreeing on `ids` over the node range have equal unvisited
counts. -/
theorem unvis_congr (g : List (List Nat)) (s s' : TarjanSt)
    (h : ∀ x, x < g.length → s'.ids x = s.ids x) : unvis g s' = unvis g s := by
  unfold unvis
  congr 1
  apply List.filter_congr
  intro x hx
  rw [h x (List.mem_range.mp hx)]

/-- A state that only discovers more nodes has an unvisited count no larger. -/
theorem unvis_mono (g : List (List Nat)) (s s' : TarjanSt)
    (h : ∀ x, visitedN s x → visitedN s' x) : unvis g s' ≤ unvis g s := by
  unfold unvis
  have hgen : ∀ l : List Nat,
      (l.filter (fun i => (s'.ids i).isNone)).length ≤
        (l.filter (fun i => (s.ids i).isNone)).length := by
    intro l
    induction l with
    | nil => exact le_refl 0
    | cons a l ih =>
      simp only [List.filter_cons]
      cases ha' : (s'.ids a).isNone with
      | true =>
        have ha : (s.ids a).isNone = true := by
          by_contra hcon
          have hv : visitedN s a := by
            simp only [visitedN, ne_eq]
            intro he
            rw [he] at hcon
            exact hcon rfl
          have := h a hv
          simp only [visitedN, ne_eq] at this
          rw [Option.isNone_iff_eq_none] at ha'
          exact this ha'
        simp only [ha, if_true, List.length_cons]
        omega
      | false =>
        cases (s.ids a).isNone <;> simp <;> omega
  exact hgen (List.range g.length)

/-- Under the invariant, every stack node reaches the deepest node of the
call path (descend along `low` witnesses until the path head's id is
reached, then climb with `reachUp`). -/
theorem stack_reaches_head (g : List (List Nat)) (ρ' : List Nat) (p : Nat)
    (s : TarjanSt) (hinv : TarjanInv g (p :: ρ') s) :
    ∀ x ∈ s.stack, Reach g x p := by
  have hp : p ∈ s.stack := hinv.pathLive p (List.mem_cons_self p ρ')
  have main : ∀ n x, x ∈ s.stack → idv s x = n → Reach g x p := by
    intro n
    induction n using Nat.strong_induction_on with
    | _ n ih =>
      intro x hx hid
      by_cases hle : idv s x ≤ idv s p
      · exact hinv.reachUp x hx p hp hle
      · have hxρ : x ∉ p :: ρ' := by
          intro hmem
          rcases List.mem_cons.mp hmem with rfl | hmem'
          · exact hle (le_refl _)
          · exact hle (le_of_lt ((List.pairwise_cons.mp hinv.pathSorted).1 x hmem'))
        have hlf := hinv.lowFrozen x hx hxρ
        obtain ⟨hle2, y, hys, hyid, hreach⟩ := hinv.lowLive x hx
        have hylt : idv s y < n := by omega
        exact hreach.trans (ih (idv s y) hylt y hys rfl)
  exact fun x hx => main (idv s x) x hx rfl

/-- `popLoop` leaves exactly the part of the stack below the first
occurrence of the pop root. -/
theorem popLoop_stack (v idAt : Nat) :
    ∀ (A B : List Nat) (os : Nat → Bool) (lw : Nat → Nat), v ∉ A →
      (popLoop v idAt (A ++ v :: B) os lw).1 = B
  | [], B, os, lw, _ => by simp [popLoop]
  | a :: A, B, os, lw, hv => by
    have hav : a ≠ v := fun h => hv (h ▸ List.mem_cons_self a A)
    have hA : v ∉ A := fun h => hv (List.mem_cons_of_mem a h)
    simp only [List.cons_append, popLoop, if_neg hav]
    exact popLoop_stack v idAt A B (upd os a false) (upd lw a idAt) hA

/-- `popLoop` marks exactly the popped nodes off-stack. -/
theorem popLoop_onStack (v idAt : Nat) :
    ∀ (A B : List Nat) (os : Nat → Bool) (lw : Nat → Nat), v ∉ A → ∀ x,
      (popLoop v idAt (A ++ v :: B) os lw).2.1 x =
        if x = v ∨ x ∈ A then false else os x
  | [], B, os, lw, _, x => by
    by_cases hx : x = v
    · simp [popLoop, hx, upd_same]
    · simp [popLoop, hx, upd_other _ _ _ _ hx]
  | a :: A, B, os, lw, hv, x => by
    have hav : a ≠ v := fun h => hv (h ▸ List.mem_cons_self a A)
    have hA : v ∉ A := fun h => hv (List.mem_cons_of_mem a h)
    simp only [List.cons_append, popLoop, if_neg hav]
    have h2 := popLoop_onStack v idAt A B (upd os a false) (upd lw a idAt) hA x
    rw [show (A.append (v :: B)) = A ++ v :: B from rfl, h2]
    by_cases hxv : x = v
    · simp [hxv]
    · by_cases hxA : x ∈ A
      · simp [hxv, hxA]
      · by_cases hxa : x = a
        · simp [hxv, hxA, hxa, upd_same]
        · simp [hxv, hxA, hxa, upd_other _ _ _ _ hxa]

/-- `popLoop` overwrites exactly the popped nodes' `low` with the root id. -/
theorem popLoop_low (v idAt : Nat) :
    ∀ (A B : List Nat) (os : Nat → Bool) (lw : Nat → Nat), v ∉ A → ∀ x,
      (popLoop v idAt (A ++ v :: B) os lw).2.2 x =
        if x = v ∨ x ∈ A then idAt else lw x
  | [], B, os, lw, _, x => by
    by_cases hx : x = v
    · simp [popLoop, hx, upd_same]
    · simp [popLoop, hx, upd_other _ _ _ _ hx]
  | a :: A, B, os, lw, hv, x => by
    have hav : a ≠ v := fun h => hv (h ▸ List.mem_cons_self a A)
    have hA : v ∉ A := fun h => hv (List.mem_cons_of_mem a h)
    simp only [List.cons_append, popLoop, if_neg hav]
    have h2 := popLoop_low v idAt A B (upd os a false) (upd lw a idAt) hA x
    rw [show (A.append (v :: B)) = A ++ v :: B from rfl, h2]
    by_cases hxv : x = v
    · simp [hxv]
    · by_cases hxA : x ∈ A
      · simp [hxv, hxA]
      · by_cases hxa : x = a
        · simp [hxv, hxA, hxa, upd_same]
        · simp [hxv, hxA, hxa, upd_other _ _ _ _ hxa]

/-- Node discovery status after `dfsEnter`. -/
theorem dfsEnter_visited (s : TarjanSt) (v x : Nat) :
    visitedN (dfsEnter s v) x ↔ x = v ∨ visitedN s x := by
  unfold visitedN dfsEnter
  by_cases hx : x = v
  · simp [hx, upd_same]
  · simp [upd_other _ _ _ _ hx, hx]

/-- Ids after `dfsEnter`, at the entered node. -/
theorem dfsEnter_ids_same (s : TarjanSt) (v : Nat) :
    (dfsEnter s v).ids v = some (s.id + 1) := by
  simp [dfsEnter, upd_same]

/-- Ids after `dfsEnter`, elsewhere. -/
theorem dfsEnter_ids_other (s : TarjanSt) (v x : Nat) (h : x ≠ v) :
    (dfsEnter s v).ids x = s.ids x := by
  simp [dfsEnter, upd_other _ _ _ _ h]

/-- Discovery ids of visited nodes are bounded by the id counter. -/
theorem idv_le_id (g : List (List Nat)) (ρ : List Nat) (s : TarjanSt)
    (hinv : TarjanInv g ρ s) (x : Nat) (hx : visitedN s x) : idv s x ≤ s.id := by
  unfold visitedN at hx
  cases hxi : s.ids x with
  | none => exact absurd hxi hx
  | some k =>
    have hr := (hinv.idsRange x k hxi).2
    unfold idv
    rw [hxi]
    exact hr

/-- Entering an undiscovered node preserves the invariant, with the node
pushed onto the call path. -/
theorem inv_push (g : List (List Nat)) (ρ : List Nat) (s : TarjanSt) (v : Nat)
    (hinv : TarjanInv g ρ s) (hv : ¬visitedN s v) (hvlt : v < g.length)
    (hedge : (ρ = [] ∧ s.stack = []) ∨ ∃ p ρ2, ρ = p :: ρ2 ∧ EdgeG g p v) :
    TarjanInv g (v :: ρ) (dfsEnter s v) := by
  have hvs : v ∉ s.stack := fun h => hv (hinv.stackVis v h)
  have hvρ : v ∉ ρ := fun h => hvs (hinv.pathLive v h)
  have hidv : ∀ x, x ≠ v → idv (dfsEnter s v) x = idv s x := by
    intro x hx
    unfold idv
    rw [dfsEnter_ids_other s v x hx]
  have hidvv : idv (dfsEnter s v) v = s.id + 1 := by
    unfold idv
    rw [dfsEnter_ids_same]
    rfl
  have hvisne : ∀ x, visitedN s x → x ≠ v := fun x hx he => hv (he ▸ hx)
  have hvis' : ∀ x, visitedN (dfsEnter s v) x ↔ x = v ∨ visitedN s x :=
    dfsEnter_visited s v
  have hstack' : (dfsEnter s v).stack = v :: s.stack := rfl
  have hlow' : ∀ x, x ≠ v → (dfsEnter s v).low x = s.low x := by
    intro x hx
    simp [dfsEnter, upd_other _ _ _ _ hx]
  have hlowv : (dfsEnter s v).low v = s.id + 1 := by
    simp [dfsEnter, upd_same]
  have hid' : (dfsEnter s v).id = s.id + 1 := rfl
  have hsvne : ∀ x ∈ s.stack, x ≠ v := fun x hx => hvisne x (hinv.stackVis x hx)
  refine ⟨?_, ?_, ?_, ?_, ?_, ?_, ?_, ?_, ?_, ?_, ?_, ?_, ?_, ?_⟩
  · -- idsRange
    intro x k hk
    by_cases hx : x = v
    · subst hx
      rw [dfsEnter_ids_same] at hk
      cases hk
      rw [hid']
      omega
    · rw [dfsEnter_ids_other s v x hx] at hk
      have := hinv.idsRange x k hk
      rw [hid']
      omega
  · -- idsInj
    intro x y k hx hy
    by_cases hxv : x = v <;> by_cases hyv : y = v
    · rw [hxv, hyv]
    · rw [hxv] at hx
      rw [dfsEnter_ids_same] at hx
      rw [dfsEnter_ids_other s v y hyv] at hy
      cases hx
      have := (hinv.idsRange y _ hy).2
      omega
    · rw [hyv] at hy
      rw [dfsEnter_ids_same] at hy
      rw [dfsEnter_ids_other s v x hxv] at hx
      cases hy
      have := (hinv.idsRange x _ hx).2
      omega
    · rw [dfsEnter_ids_other s v x hxv] at hx
      rw [dfsEnter_ids_other s v y hyv] at hy
      exact hinv.idsInj x y k hx hy
  · -- visLt
    intro x hx
    rcases (hvis' x).mp hx with hxv | hx
    · rw [hxv]
      exact hvlt
    · exact hinv.visLt x hx
  · -- stackVis
    intro x hx
    rw [hstack'] at hx
    rcases List.mem_cons.mp hx with hxv | hx
    · exact (hvis' x).mpr (Or.inl hxv)
    · exact (hvis' x).mpr (Or.inr (hinv.stackVis x hx))
  · -- onStackIff
    intro x
    rw [hstack']
    by_cases hx : x = v
    · subst hx
      simp [dfsEnter, upd_same]
    · simp only [dfsEnter]
      rw [upd_other _ _ _ _ hx]
      simp only [List.mem_cons]
      rw [hinv.onStackIff x]
      tauto
  · -- stackSorted
    rw [hstack']
    rw [List.pairwise_cons]
    constructor
    · intro b hb
      rw [hidv b (hsvne b hb), hidvv]
      have := idv_le_id g ρ s hinv b (hinv.stackVis b hb)
      omega
    · refine List.Pairwise.imp_of_mem ?_ hinv.stackSorted
      intro a b ha hb hab
      rw [hidv a (hsvne a ha), hidv b (hsvne b hb)]
      exact hab
  · -- reachUp
    intro x hx y hy hle
    rw [hstack'] at hx hy
    rcases List.mem_cons.mp hx with hxv | hx
    · rcases List.mem_cons.mp hy with hyv | hy
      · rw [hxv, hyv]
        exact Relation.ReflTransGen.refl
      · rw [hxv] at hle
        rw [hidvv, hidv y (hsvne y hy)] at hle
        have := idv_le_id g ρ s hinv y (hinv.stackVis y hy)
        omega
    · rcases List.mem_cons.mp hy with hyv | hy
      · rw [hyv]
        rcases hedge with ⟨hρ, hst⟩ | ⟨p, ρ2, hρ, he⟩
        · rw [hst] at hx
          cases hx
        · subst hρ
          exact (stack_reaches_head g ρ2 p s hinv x hx).trans (reach_of_edge he)
      · rw [hidv x (hsvne x hx), hidv y (hsvne y hy)] at hle
        exact hinv.reachUp x hx y hy hle
  · -- lowLive
    intro x hx
    rw [hstack'] at hx
    rcases List.mem_cons.mp hx with hxv | hx
    · rw [hxv, hlowv, hidvv]
      refine ⟨le_refl _, v, ?_, ?_, Relation.ReflTransGen.refl⟩
      · rw [hstack']
        exact List.mem_cons_self v s.stack
      · exact hidvv
    · obtain ⟨hle, y, hys, hyid, hr⟩ := hinv.lowLive x hx
      rw [hlow' x (hsvne x hx), hidv x (hsvne x hx)]
      refine ⟨hle, y, ?_, ?_, hr⟩
      · rw [hstack']
        exact List.mem_cons_of_mem v hys
      · rw [hidv y (hsvne y hys)]
        exact hyid
  · -- lowFrozen
    intro x hx hxρ
    rw [hstack'] at hx
    have hxv : x ≠ v := fun h => hxρ (h ▸ List.mem_cons_self v ρ)
    rcases List.mem_cons.mp hx with h2 | hx
    · exact absurd h2 hxv
    · have hxρ' : x ∉ ρ := fun h => hxρ (List.mem_cons_of_mem v h)
      rw [hlow' x hxv, hidv x hxv]
      exact hinv.lowFrozen x hx hxρ'
  · -- explored
    intro x hx hxρ w hw
    have hxv : x ≠ v := fun h => hxρ (h ▸ List.mem_cons_self v ρ)
    rcases (hvis' x).mp hx with h2 | hx2
    · exact absurd h2 hxv
    · have hxρ' : x ∉ ρ := fun h => hxρ (List.mem_cons_of_mem v h)
      exact (hvis' w).mpr (Or.inr (hinv.explored x hx2 hxρ' w hw))
  · -- lowBack
    intro z hz hzρ w hzw hws
    rw [hstack'] at hz hws
    have hzv : z ≠ v := fun h => hzρ (h ▸ List.mem_cons_self v ρ)
    rcases List.mem_cons.mp hz with h2 | hz
    · exact absurd h2 hzv
    · have hzρ' : z ∉ ρ := fun h => hzρ (List.mem_cons_of_mem v h)
      rcases List.mem_cons.mp hws with hwv | hws
      · rw [hwv] at hzw
        exact absurd (hinv.explored z (hinv.stackVis z hz) hzρ' v hzw) hv
      · rw [hlow' z hzv, hidv w (hsvne w hws)]
        exact hinv.lowBack z hz hzρ' w hzw hws
  · -- finComplete
    intro x hx hxs
    rw [hstack'] at hxs
    have hxv : x ≠ v := fun h => hxs (h ▸ List.mem_cons_self v s.stack)
    rcases (hvis' x).mp hx with h2 | hx2
    · exact absurd h2 hxv
    · have hxs' : x ∉ s.stack := fun h => hxs (List.mem_cons_of_mem v h)
      obtain ⟨⟨r, hrv, hrs, hlr, hlrr, hmr⟩, hcomp⟩ := hinv.finComplete x hx2 hxs'
      have hrvne : r ≠ v := hvisne r hrv
      constructor
      · refine ⟨r, (hvis' r).mpr (Or.inr hrv), ?_, ?_, ?_, hmr⟩
        · rw [hstack']
          intro hmem
          rcases List.mem_cons.mp hmem with h3 | h3
          · exact hrvne h3
          · exact hrs h3
        · rw [hlow' x hxv, hidv r hrvne]
          exact hlr
        · rw [hlow' r hrvne, hidv r hrvne]
          exact hlrr
      · intro y hy
        obtain ⟨hyv, hys, hyl⟩ := hcomp y hy
        have hyvne : y ≠ v := hvisne y hyv
        refine ⟨(hvis' y).mpr (Or.inr hyv), ?_, ?_⟩
        · rw [hstack']
          intro hmem
          rcases List.mem_cons.mp hmem with h3 | h3
          · exact hyvne h3
          · exact hys h3
        · rw [hlow' y hyvne, hlow' x hxv]
          exact hyl
  · -- pathLive
    intro p hp
    rw [hstack']
    rcases List.mem_cons.mp hp with hpv | hp
    · rw [hpv]
      exact List.mem_cons_self v s.stack
    · exact List.mem_cons_of_mem v (hinv.pathLive p hp)
  · -- pathSorted
    rw [List.pairwise_cons]
    constructor
    · intro q hq
      have hqs : q ∈ s.stack := hinv.pathLive q hq
      rw [hidv q (hsvne q hqs), hidvv]
      have := idv_le_id g ρ s hinv q (hinv.stackVis q hqs)
      omega
    · refine List.Pairwise.imp_of_mem ?_ hinv.pathSorted
      intro a b ha hb hab
      rw [hidv a (hsvne a (hinv.pathLive a ha)),
        hidv b (hsvne b (hinv.pathLive b hb))]
      exact hab

/-- An undiscovered in-range node keeps the unvisited count positive. -/
theorem unvis_pos (g : List (List Nat)) (s : TarjanSt) (v : Nat)
    (hv : ¬visitedN s v) (hlt : v < g.length) : 0 < unvis g s := by
  unfold unvis
  have hmem : v ∈ (List.range g.length).filter (fun i => (s.ids i).isNone) := by
    refine List.mem_filter.mpr ⟨List.mem_range.mpr hlt, ?_⟩
    simp only [visitedN, ne_eq, not_not] at hv
    simp [hv]
  exact List.length_pos.mpr (fun he => by simp [he] at hmem)

/-- The unvisited count never exceeds the node count. -/
theorem unvis_le_len (g : List (List Nat)) (s : TarjanSt) :
    unvis g s ≤ g.length := by
  unfold unvis
  calc ((List.range g.length).filter _).length
      ≤ (List.range g.length).length := List.length_filter_le _ _
    _ = g.length := List.length_range g.length

/-- In a well-formed graph every edge target is a node index. -/
theorem edge_target_lt (g : List (List Nat)) (v w : Nat) (hg : wfG g)
    (h : EdgeG g v w) : w < g.length := by
  unfold EdgeG at h
  by_cases hv : v < g.length
  · rw [List.getD_eq_getElem g [] hv] at h
    exact hg (g[v]) (List.getElem_mem hv) w h
  · rw [List.getD_eq_default g [] (le_of_not_lt hv)] at h
    exact absurd h (List.not_mem_nil w)

/-- A visited node's stored id is its discovery id. -/
theorem visited_ids_idv (s : TarjanSt) (x : Nat) (hx : visitedN s x) :
    s.ids x = some (idv s x) := by
  unfold visitedN at hx
  cases hxi : s.ids x with
  | none => exact absurd hxi hx
  | some k => unfold idv; rw [hxi]; rfl

/-- With an empty call path the invariant forces an empty stack: a nonempty
stack would contain a node of minimal discovery id whose `low` (strictly
smaller by `lowFrozen`) is the id of another stack node. -/
theorem stack_empty_of_inv_nil (g : List (List Nat)) (s : TarjanSt)
    (hinv : TarjanInv g [] s) : s.stack = [] := by
  have main : ∀ n x, x ∈ s.stack → idv s x = n → False := by
    intro n
    induction n using Nat.strong_induction_on with
    | _ n ih =>
      intro x hx hid
      have hlf := hinv.lowFrozen x hx (List.not_mem_nil x)
      obtain ⟨_, y, hys, hyid, _⟩ := hinv.lowLive x hx
      exact ih (idv s y) (by omega) y hys rfl
  cases hst : s.stack with
  | nil => rfl
  | cons a rest =>
    exact absurd (main (idv s a) a (hst ▸ List.mem_cons_self a rest) rfl) id

/-- Lowering the `low` of the path head `v` to the minimum with the `low`
of a reachable stack node `w` preserves the invariant (the update of
lines 133-135 of `dfs`). -/
theorem inv_lowv (g : List (List Nat)) (ρ : List Nat) (v w : Nat) (s : TarjanSt)
    (hinv : TarjanInv g (v :: ρ) s) (hw : w ∈ s.stack) (hreach : Reach g v w) :
    TarjanInv g (v :: ρ)
      { s with low := upd s.low v (min (s.low v) (s.low w)) } := by
  have hvstk : v ∈ s.stack := hinv.pathLive v (List.mem_cons_self v ρ)
  constructor
  · exact hinv.idsRange
  · exact hinv.idsInj
  · exact hinv.visLt
  · exact hinv.stackVis
  · exact hinv.onStackIff
  · exact hinv.stackSorted
  · exact hinv.reachUp
  · -- lowLive
    intro x hx
    by_cases hxv : x = v
    · subst hxv
      obtain ⟨hle, y, hys, hyid, hyr⟩ := hinv.lowLive x hx
      obtain ⟨hlew, yw, hyws, hywid, hywr⟩ := hinv.lowLive w hw
      constructor
      · show upd s.low x (min (s.low x) (s.low w)) x ≤ idv s x
        rw [upd_same]
        exact le_trans (min_le_left _ _) hle
      · rcases le_total (s.low x) (s.low w) with hmin | hmin
        · refine ⟨y, hys, ?_, hyr⟩
          show idv s y = upd s.low x (min (s.low x) (s.low w)) x
          rw [upd_same, min_eq_left hmin]
          exact hyid
        · refine ⟨yw, hyws, ?_, hreach.trans hywr⟩
          show idv s yw = upd s.low x (min (s.low x) (s.low w)) x
          rw [upd_same, min_eq_right hmin]
          exact hywid
    · obtain ⟨hle, y, hys, hyid, hyr⟩ := hinv.lowLive x hx
      constructor
      · show upd s.low v (min (s.low v) (s.low w)) x ≤ idv s x
        rw [upd_other _ _ _ _ hxv]
        exact hle
      · refine ⟨y, hys, ?_, hyr⟩
        show idv s y = upd s.low v (min (s.low v) (s.low w)) x
        rw [upd_other _ _ _ _ hxv]
        exact hyid
  · -- lowFrozen
    intro x hx hxρ
    have hxv : x ≠ v := fun h => hxρ (h ▸ List.mem_cons_self v ρ)
    show upd s.low v (min (s.low v) (s.low w)) x < idv s x
    rw [upd_other _ _ _ _ hxv]
    exact hinv.lowFrozen x hx hxρ
  · exact hinv.explored
  · -- lowBack
    intro z hz hzρ u hzu hus
    have hzv : z ≠ v := fun h => hzρ (h ▸ List.mem_cons_self v ρ)
    show upd s.low v (min (s.low v) (s.low w)) z ≤ idv s u
    rw [upd_other _ _ _ _ hzv]
    exact hinv.lowBack z hz hzρ u hzu hus
  · -- finComplete
    intro x hxvis hxs
    have hxv : x ≠ v := fun h => hxs (h ▸ hvstk)
    obtain ⟨⟨r, hrvis, hrs, hrlow, hrfix, hrmr⟩, hpart⟩ := hinv.finComplete x hxvis hxs
    have hrv : r ≠ v := fun h => hrs (h ▸ hvstk)
    refine ⟨⟨r, hrvis, hrs, ?_, ?_, hrmr⟩, ?_⟩
    · show upd s.low v (min (s.low v) (s.low w)) x = idv s r
      rw [upd_other _ _ _ _ hxv]
      exact hrlow
    · show upd s.low v (min (s.low v) (s.low w)) r = idv s r
      rw [upd_other _ _ _ _ hrv]
      exact hrfix
    · intro y hy
      obtain ⟨hyvis, hys, hylow⟩ := hpart y hy
      have hyv : y ≠ v := fun h => hys (h ▸ hvstk)
      refine ⟨hyvis, hys, ?_⟩
      show upd s.low v (min (s.low v) (s.low w)) y =
        upd s.low v (min (s.low v) (s.low w)) x
      rw [upd_other _ _ _ _ hyv, upd_other _ _ _ _ hxv]
      exact hylow
  · exact hinv.pathLive
  · exact hinv.pathSorted

/-- One iteration of the child loop of `dfs(v)` (the body for a single
edge target `w`), assuming the recursive call meets its specification. -/
theorem kid_step (g : List (List Nat)) (hg : wfG g) (ρ : List Nat) (v : Nat)
    (f : Nat)
    (hrec : ∀ (s : TarjanSt) (w : Nat), TarjanInv g (v :: ρ) s →
       ¬visitedN s w → w < g.length → EdgeG g v w → unvis g s ≤ f →
       DfsPost g (v :: ρ) s (dfsF g f s w) w)
    (s : TarjanSt) (w : Nat) (hinv : TarjanInv g (v :: ρ) s)
    (hw : EdgeG g v w) (hun : unvis g s ≤ f) (s1 s2 : TarjanSt)
    (hs1 : s1 = (if (s.ids w).isNone then dfsF g f s w else s))
    (hs2 : s2 = (if s1.onStack w then
      { s1 with low := upd s1.low v (min (s1.low v) (s1.low w)) } else s1)) :
    KidsPost g ρ s s2 v [w] := by
  have hvstk : v ∈ s.stack := hinv.pathLive v (List.mem_cons_self v ρ)
  have hvvis : visitedN s v := hinv.stackVis v hvstk
  by_cases hwv : (s.ids w).isNone = true
  · -- the edge target is undiscovered: a recursive dfs call runs
    have hwnv : ¬visitedN s w := by
      simp only [visitedN, ne_eq, not_not]
      exact Option.isNone_iff_eq_none.mp hwv
    have hwlt : w < g.length := edge_target_lt g v w hg hw
    rw [if_pos hwv] at hs1
    have hpost : DfsPost g (v :: ρ) s s1 w := by
      rw [hs1]
      exact hrec s w hinv hwnv hwlt hw hun
    by_cases hos : s1.onStack w = true
    · -- child still on the stack: lower low[v]
      have hwstk1 : w ∈ s1.stack := (hpost.inv.onStackIff w).mp hos
      obtain ⟨Δ, hΔst, hΔf, hΔd, _⟩ := hpost.stackBlock
      obtain ⟨hwΔ, hΔdom⟩ := hΔd hwstk1
      rw [if_pos hos] at hs2
      subst hs2
      constructor
      · exact inv_lowv g ρ v w s1 hpost.inv hwstk1 (reach_of_edge hw)
      · exact fun x hx => hpost.idsOld x hx
      · exact le_of_lt hpost.idGrow
      · intro x hx hxv
        show upd s1.low v (min (s1.low v) (s1.low w)) x = s.low x
        rw [upd_other _ _ _ _ hxv]
        exact hpost.lowOldLive x hx
      · intro x hxvis hxs
        have hxv : x ≠ v := fun h => hxs (h ▸ hvstk)
        show upd s1.low v (min (s1.low v) (s1.low w)) x = s.low x
        rw [upd_other _ _ _ _ hxv]
        exact hpost.lowOldDead x hxvis hxs
      · exact hpost.deadStay
      · show upd s1.low v (min (s1.low v) (s1.low w)) v ≤ s.low v
        rw [upd_same]
        exact le_trans (min_le_left _ _) (le_of_eq (hpost.lowOldLive v hvstk))
      · refine ⟨Δ, hΔst, hΔf, ?_⟩
        intro z hz
        have hzv : z ≠ v := fun h => hΔf z hz (h ▸ hvvis)
        show upd s1.low v (min (s1.low v) (s1.low w)) v ≤
          upd s1.low v (min (s1.low v) (s1.low w)) z
        rw [upd_same, upd_other _ _ _ _ hzv]
        exact le_trans (min_le_right _ _) (hΔdom z hz)
      · exact hpost.visGrow.2
      · intro x hx hnx
        obtain ⟨hr, hlt⟩ := hpost.newReach x hx hnx
        exact ⟨(reach_of_edge hw).trans hr, hlt⟩
      · intro w' hw'
        rcases List.mem_cons.mp hw' with hww | hws
        · subst hww
          refine ⟨hpost.visGrow.1, ?_⟩
          intro _
          show upd s1.low v (min (s1.low v) (s1.low w')) v ≤ idv s1 w'
          rw [upd_same]
          exact le_trans (min_le_right _ _) (hpost.inv.lowLive w' hwstk1).1
        · exact absurd hws (List.not_mem_nil w')
      · exact le_of_lt hpost.unvisDec
    · -- child already popped during the recursive call: nothing changes
      have hwstk1 : w ∉ s1.stack := fun h => hos ((hpost.inv.onStackIff w).mpr h)
      obtain ⟨Δ, hΔst, _, _, hnil⟩ := hpost.stackBlock
      have hΔe : Δ = [] := hnil hwstk1
      subst hΔe
      rw [if_neg hos] at hs2
      subst hs2
      constructor
      · exact hpost.inv
      · exact hpost.idsOld
      · exact le_of_lt hpost.idGrow
      · exact fun x hx _ => hpost.lowOldLive x hx
      · exact hpost.lowOldDead
      · exact hpost.deadStay
      · exact le_of_eq (hpost.lowOldLive v hvstk)
      · exact ⟨[], by rw [hΔst], fun z hz => absurd hz (List.not_mem_nil z),
          fun z hz => absurd hz (List.not_mem_nil z)⟩
      · exact hpost.visGrow.2
      · intro x hx hnx
        obtain ⟨hr, hlt⟩ := hpost.newReach x hx hnx
        exact ⟨(reach_of_edge hw).trans hr, hlt⟩
      · intro w' hw'
        rcases List.mem_cons.mp hw' with hww | hws
        · subst hww
          exact ⟨hpost.visGrow.1, fun h => absurd h hwstk1⟩
        · exact absurd hws (List.not_mem_nil w')
      · exact le_of_lt hpost.unvisDec
  · -- the edge target was already discovered: no recursive call
    have hwvis : visitedN s w := by
      simp only [visitedN, ne_eq]
      intro h
      rw [h] at hwv
      exact hwv rfl
    rw [if_neg hwv] at hs1
    rw [hs1] at hs2
    by_cases hos : s.onStack w = true
    · -- on the stack: lower low[v]
      have hwstk : w ∈ s.stack := (hinv.onStackIff w).mp hos
      rw [if_pos hos] at hs2
      subst hs2
      constructor
      · exact inv_lowv g ρ v w s hinv hwstk (reach_of_edge hw)
      · exact fun x _ => rfl
      · exact le_refl _
      · intro x _ hxv
        show upd s.low v (min (s.low v) (s.low w)) x = s.low x
        rw [upd_other _ _ _ _ hxv]
      · intro x _ hxs
        have hxv : x ≠ v := fun h => hxs (h ▸ hvstk)
        show upd s.low v (min (s.low v) (s.low w)) x = s.low x
        rw [upd_other _ _ _ _ hxv]
      · exact fun x _ h => h
      · show upd s.low v (min (s.low v) (s.low w)) v ≤ s.low v
        rw [upd_same]
        exact min_le_left _ _
      · exact ⟨[], rfl, fun z hz => absurd hz (List.not_mem_nil z),
          fun z hz => absurd hz (List.not_mem_nil z)⟩
      · exact fun x h => h
      · exact fun x hx hnx => absurd hx hnx
      · intro w' hw'
        rcases List.mem_cons.mp hw' with hww | hws
        · subst hww
          refine ⟨hwvis, ?_⟩
          intro _
          show upd s.low v (min (s.low v) (s.low w')) v ≤ idv s w'
          rw [upd_same]
          exact le_trans (min_le_right _ _) (hinv.lowLive w' hwstk).1
        · exact absurd hws (List.not_mem_nil w')
      · exact le_refl _
    · -- discovered but already popped: the iteration is a no-op
      have hwstk : w ∉ s.stack := fun h => hos ((hinv.onStackIff w).mpr h)
      rw [if_neg hos] at hs2
      subst hs2
      constructor
      · exact hinv
      · exact fun x _ => rfl
      · exact le_refl _
      · exact fun x _ _ => rfl
      · exact fun x _ _ => rfl
      · exact fun x _ h => h
      · exact le_refl _
      · exact ⟨[], rfl, fun z hz => absurd hz (List.not_mem_nil z),
          fun z hz => absurd hz (List.not_mem_nil z)⟩
      · exact fun x h => h
      · exact fun x hx hnx => absurd hx hnx
      · intro w' hw'
        rcases List.mem_cons.mp hw' with hww | hws
        · subst hww
          exact ⟨hwvis, fun h => absurd h hwstk⟩
        · exact absurd hws (List.not_mem_nil w')
      · exact le_refl _

/-- Composing the postcondition of one child-loop iteration with that of the
remaining iterations. -/
theorem kidsPost_cons (g : List (List Nat)) (ρ : List Nat) (v w : Nat)
    (ws : List Nat) (s s2 s3 : TarjanSt)
    (h1 : KidsPost g ρ s s2 v [w]) (h2 : KidsPost g ρ s2 s3 v ws)
    (hvstk : v ∈ s.stack) (hvvis : visitedN s v) :
    KidsPost g ρ s s3 v (w :: ws) := by
  have hvis12 : ∀ x, visitedN s x → visitedN s2 x := h1.visGrow
  constructor
  · exact h2.inv
  · intro x hx
    rw [h2.idsOld x (hvis12 x hx), h1.idsOld x hx]
  · exact le_trans h1.idGrow h2.idGrow
  · intro x hx hxv
    obtain ⟨Δ1, hΔ1st, hΔ1f, _⟩ := h1.stackBlock
    have hx2 : x ∈ s2.stack := by
      rw [hΔ1st]
      exact List.mem_append_right Δ1 hx
    rw [h2.lowOldLive x hx2 hxv, h1.lowOldLive x hx hxv]
  · intro x hxvis hxs
    rw [h2.lowOldDead x (hvis12 x hxvis) (h1.deadStay x hxvis hxs),
      h1.lowOldDead x hxvis hxs]
  · intro x hxvis hxs
    exact h2.deadStay x (hvis12 x hxvis) (h1.deadStay x hxvis hxs)
  · exact le_trans h2.lowV h1.lowV
  · obtain ⟨Δ1, hΔ1st, hΔ1f, hΔ1d⟩ := h1.stackBlock
    obtain ⟨Δ2, hΔ2st, hΔ2f, hΔ2d⟩ := h2.stackBlock
    refine ⟨Δ2 ++ Δ1, ?_, ?_, ?_⟩
    · rw [hΔ2st, hΔ1st, List.append_assoc]
    · intro z hz
      rcases List.mem_append.mp hz with hz2 | hz1
      · exact fun hvz => hΔ2f z hz2 (hvis12 z hvz)
      · exact hΔ1f z hz1
    · intro z hz
      rcases List.mem_append.mp hz with hz2 | hz1
      · exact hΔ2d z hz2
      · have hz2stk : z ∈ s2.stack := by
          rw [hΔ1st]
          exact List.mem_append_left _ hz1
        have hzv : z ≠ v := fun h => hΔ1f z hz1 (h ▸ hvvis)
        rw [h2.lowOldLive z hz2stk hzv]
        exact le_trans h2.lowV (hΔ1d z hz1)
  · exact fun x hx => h2.visGrow x (hvis12 x hx)
  · intro x hx hnx
    by_cases hx2 : visitedN s2 x
    · obtain ⟨hr, hlt⟩ := h1.newReach x hx2 hnx
      refine ⟨hr, ?_⟩
      unfold idv
      rw [h2.idsOld x hx2]
      exact hlt
    · obtain ⟨hr, hlt⟩ := h2.newReach x hx hx2
      exact ⟨hr, lt_of_le_of_lt h1.idGrow hlt⟩
  · intro w' hw'
    rcases List.mem_cons.mp hw' with hww | hws
    · subst hww
      obtain ⟨hwvis2, hwlow2⟩ := h1.processed w' (List.mem_cons_self w' [])
      refine ⟨h2.visGrow w' hwvis2, ?_⟩
      intro hw3
      obtain ⟨Δ2, hΔ2st, hΔ2f, _⟩ := h2.stackBlock
      have hw2stk : w' ∈ s2.stack := by
        rw [hΔ2st] at hw3
        rcases List.mem_append.mp hw3 with h | h
        · exact absurd hwvis2 (hΔ2f w' h)
        · exact h
      have hidw : idv s3 w' = idv s2 w' := by
        unfold idv
        rw [h2.idsOld w' hwvis2]
      rw [hidw]
      exact le_trans h2.lowV (hwlow2 hw2stk)
    · exact h2.processed w' hws
  · exact le_trans h2.unvisLe h1.unvisLe

/-- Specification of the full child loop of `dfs(v)`, by induction along the
edge list, assuming the recursive calls meet the `dfs` specification. -/
theorem kids_spec (g : List (List Nat)) (hg : wfG g) (ρ : List Nat) (v : Nat)
    (f : Nat)
    (hrec : ∀ (s : TarjanSt) (w : Nat), TarjanInv g (v :: ρ) s →
       ¬visitedN s w → w < g.length → EdgeG g v w → unvis g s ≤ f →
       DfsPost g (v :: ρ) s (dfsF g f s w) w) :
    ∀ (ws : List Nat) (s : TarjanSt), TarjanInv g (v :: ρ) s →
      (∀ w ∈ ws, EdgeG g v w) → unvis g s ≤ f →
      KidsPost g ρ s (dfsKids (dfsF g f) s v ws) v ws := by
  intro ws
  induction ws with
  | nil =>
    intro s hinv _ _
    exact ⟨hinv, fun x _ => rfl, le_refl _, fun x _ _ => rfl, fun x _ _ => rfl,
      fun x _ h => h, le_refl _,
      ⟨[], rfl, fun z hz => absurd hz (List.not_mem_nil z),
        fun z hz => absurd hz (List.not_mem_nil z)⟩,
      fun x h => h, fun x hx hnx => absurd hx hnx,
      fun w' hw' => absurd hw' (List.not_mem_nil w'), le_refl _⟩
  | cons w ws ih =>
    intro s hinv hedges hun
    have hvstk : v ∈ s.stack := hinv.pathLive v (List.mem_cons_self v ρ)
    have hvvis : visitedN s v := hinv.stackVis v hvstk
    have h1 := kid_step g hg ρ v f hrec s w hinv
      (hedges w (List.mem_cons_self w ws)) hun _ _ rfl rfl
    have h2 := ih _ h1.inv
      (fun w' hw' => hedges w' (List.mem_cons_of_mem w hw'))
      (le_trans h1.unvisLe hun)
    show KidsPost g ρ s
      (dfsKids (dfsF g f)
        (if (if (s.ids w).isNone then dfsF g f s w else s).onStack w then
          { (if (s.ids w).isNone then dfsF g f s w else s) with
            low := upd (if (s.ids w).isNone then dfsF g f s w else s).low v
              (min ((if (s.ids w).isNone then dfsF g f s w else s).low v)
                   ((if (s.ids w).isNone then dfsF g f s w else s).low w)) }
        else (if (s.ids w).isNone then dfsF g f s w else s)) v ws) v (w :: ws)
    exact kidsPost_cons g ρ v w ws s _ _ h1 h2 hvstk hvvis

/-- `dfs(v)` when the root test fails (`low[v]` was lowered below `ids[v]`):
the state after the child loop is returned unchanged and `v` stays on the
stack; the call path shrinks back to the caller's. -/
theorem dfs_nopop (g : List (List Nat)) (ρ : List Nat) (s : TarjanSt) (v : Nat)
    (hinv : TarjanInv g ρ s) (hv : ¬visitedN s v) (hvlt : v < g.length)
    (s2 : TarjanSt)
    (hkids : KidsPost g ρ (dfsEnter s v) s2 v (g.getD v []))
    (hidv2 : idv s2 v = s.id + 1)
    (hnroot : s2.low v ≠ s.id + 1) :
    DfsPost g ρ s s2 v := by
  have hinv2 := hkids.inv
  have hvs : v ∉ s.stack := fun h => hv (hinv.stackVis v h)
  have hv1 : visitedN (dfsEnter s v) v := (dfsEnter_visited s v v).mpr (Or.inl rfl)
  have hvisds : ∀ x, visitedN s x → visitedN (dfsEnter s v) x :=
    fun x hx => (dfsEnter_visited s v x).mpr (Or.inr hx)
  have hids : ∀ x, visitedN s x → s2.ids x = s.ids x := by
    intro x hx
    have hxv : x ≠ v := fun h => hv (h ▸ hx)
    rw [hkids.idsOld x (hvisds x hx), dfsEnter_ids_other s v x hxv]
  have hvstk2 : v ∈ s2.stack := hinv2.pathLive v (List.mem_cons_self v ρ)
  have hlowv2 : s2.low v ≤ s.id + 1 := by
    have h := hkids.lowV
    have h2 : (dfsEnter s v).low v = s.id + 1 := upd_same s.low v (s.id + 1)
    rw [h2] at h
    exact h
  have hlowlt : s2.low v < s.id + 1 := lt_of_le_of_ne hlowv2 hnroot
  constructor
  · -- the invariant with the path popped back to the caller's
    constructor
    · exact hinv2.idsRange
    · exact hinv2.idsInj
    · exact hinv2.visLt
    · exact hinv2.stackVis
    · exact hinv2.onStackIff
    · exact hinv2.stackSorted
    · exact hinv2.reachUp
    · exact hinv2.lowLive
    · intro x hx hxρ
      by_cases hxv : x = v
      · subst hxv
        rw [hidv2]
        exact hlowlt
      · exact hinv2.lowFrozen x hx (by
          intro h
          rcases List.mem_cons.mp h with h1 | h2
          · exact hxv h1
          · exact hxρ h2)
    · intro x hxvis hxρ w hw
      by_cases hxv : x = v
      · subst hxv
        exact (hkids.processed w hw).1
      · exact hinv2.explored x hxvis (by
          intro h
          rcases List.mem_cons.mp h with h1 | h2
          · exact hxv h1
          · exact hxρ h2) w hw
    · intro z hz hzρ w hzw hws
      by_cases hzv : z = v
      · subst hzv
        exact (hkids.processed w hzw).2 hws
      · exact hinv2.lowBack z hz (by
          intro h
          rcases List.mem_cons.mp h with h1 | h2
          · exact hzv h1
          · exact hzρ h2) w hzw hws
    · exact hinv2.finComplete
    · exact fun p hp => hinv2.pathLive p (List.mem_cons_of_mem v hp)
    · exact (List.pairwise_cons.mp hinv2.pathSorted).2
  · exact hids
  · exact lt_of_lt_of_le (Nat.lt_succ_self s.id) hkids.idGrow
  · intro x hx
    have hxv : x ≠ v := fun h => hvs (h ▸ hx)
    rw [hkids.lowOldLive x (List.mem_cons_of_mem v hx) hxv]
    exact upd_other s.low v x (s.id + 1) hxv
  · intro x hxvis hxs
    have hxv : x ≠ v := fun h => hv (h ▸ hxvis)
    have hx1 : x ∉ (dfsEnter s v).stack := by
      intro h
      rcases List.mem_cons.mp h with h1 | h2
      · exact hxv h1
      · exact hxs h2
    rw [hkids.lowOldDead x (hvisds x hxvis) hx1]
    exact upd_other s.low v x (s.id + 1) hxv
  · intro x hxvis hxs
    refine hkids.deadStay x (hvisds x hxvis) ?_
    intro h
    rcases List.mem_cons.mp h with h1 | h2
    · exact hv (h1 ▸ hxvis)
    · exact hxs h2
  · obtain ⟨Δ, hΔst, hΔf, hΔd⟩ := hkids.stackBlock
    refine ⟨Δ ++ [v], ?_, ?_, ?_, ?_⟩
    · rw [hΔst, List.append_assoc]
      rfl
    · intro z hz
      rcases List.mem_append.mp hz with h1 | h2
      · exact fun hvz => hΔf z h1 (hvisds z hvz)
      · rw [List.mem_singleton.mp h2]
        exact hv
    · intro _
      refine ⟨List.mem_append_right Δ (List.mem_singleton.mpr rfl), ?_⟩
      intro z hz
      rcases List.mem_append.mp hz with h1 | h2
      · exact hΔd z h1
      · rw [List.mem_singleton.mp h2]
    · intro h
      exact absurd hvstk2 h
  · constructor
    · have := hinv2.stackVis v hvstk2
      exact this
    · exact fun x hx => hkids.visGrow x (hvisds x hx)
  · intro x hx hnx
    by_cases hx1 : visitedN (dfsEnter s v) x
    · rcases (dfsEnter_visited s v x).mp hx1 with h1 | h2
      · subst h1
        refine ⟨Relation.ReflTransGen.refl, ?_⟩
        have hxids : s2.ids x = some (s.id + 1) := by
          rw [hkids.idsOld x hx1]
          exact dfsEnter_ids_same s x
        unfold idv
        rw [hxids]
        exact Nat.lt_succ_self s.id
      · exact absurd h2 hnx
    · obtain ⟨hr, hlt⟩ := hkids.newReach x hx hx1
      exact ⟨hr, lt_trans (Nat.lt_succ_self s.id) hlt⟩
  · have h2 := hkids.unvisLe
    have h3 := unvis_enter g s v hv hvlt
    omega

/-- `dfs(v)` when the root test succeeds (`low[v] = ids[v]`): the pop loop
removes exactly `v` and the newly discovered block `Δ` above it, which is
shown to be precisely the strongly connected component of `v` among the
unassigned nodes.  The resulting state satisfies the caller's invariant. -/
theorem dfs_pop (g : List (List Nat)) (ρ : List Nat) (s : TarjanSt)
    (v : Nat) (hinv : TarjanInv g ρ s) (hv : ¬visitedN s v) (hvlt : v < g.length)
    (s2 : TarjanSt) (Δ : List Nat)
    (hkids : KidsPost g ρ (dfsEnter s v) s2 v (g.getD v []))
    (hΔst : s2.stack = Δ ++ v :: s.stack)
    (hΔf : ∀ z ∈ Δ, ¬visitedN (dfsEnter s v) z)
    (hΔd : ∀ z ∈ Δ, s2.low v ≤ s2.low z)
    (hroot : s2.low v = s.id + 1)
    (s' : TarjanSt)
    (hids' : s'.ids = s2.ids) (hid' : s'.id = s2.id)
    (hstk' : s'.stack = s.stack)
    (hos' : ∀ x, s'.onStack x = if x = v ∨ x ∈ Δ then false else s2.onStack x)
    (hlow' : ∀ x, s'.low x = if x = v ∨ x ∈ Δ then s.id + 1 else s2.low x) :
    DfsPost g ρ s s' v := by
  have hinv2 := hkids.inv
  have hvs : v ∉ s.stack := fun h => hv (hinv.stackVis v h)
  have hv1 : visitedN (dfsEnter s v) v := (dfsEnter_visited s v v).mpr (Or.inl rfl)
  have hvΔ : v ∉ Δ := fun h => hΔf v h hv1
  have hvisds : ∀ x, visitedN s x → visitedN (dfsEnter s v) x :=
    fun x hx => (dfsEnter_visited s v x).mpr (Or.inr hx)
  have hids : ∀ x, visitedN s x → s2.ids x = s.ids x := by
    intro x hx
    have hxv : x ≠ v := fun h => hv (h ▸ hx)
    rw [hkids.idsOld x (hvisds x hx), dfsEnter_ids_other s v x hxv]
  have hidvold : ∀ x, visitedN s x → idv s2 x = idv s x := by
    intro x hx
    unfold idv
    rw [hids x hx]
  have hvids2 : s2.ids v = some (s.id + 1) := by
    rw [hkids.idsOld v hv1]
    exact dfsEnter_ids_same s v
  have hvvis2 : visitedN s2 v := by simp [visitedN, hvids2]
  have hidv2 : idv s2 v = s.id + 1 := by
    unfold idv
    rw [hvids2]
    rfl
  have hΔfs : ∀ z ∈ Δ, ¬visitedN s z := fun z hz hvz => hΔf z hz (hvisds z hvz)
  have hΔnstk : ∀ z ∈ Δ, z ∉ s.stack :=
    fun z hz h => hΔfs z hz (hinv.stackVis z h)
  have hembed : ∀ x ∈ s.stack, x ∈ s2.stack := by
    intro x hx
    rw [hΔst]
    exact List.mem_append_right Δ (List.mem_cons_of_mem v hx)
  have hPstk2 : ∀ x, (x = v ∨ x ∈ Δ) → x ∈ s2.stack := by
    intro x hx
    rw [hΔst]
    rcases hx with h1 | h2
    · rw [h1]
      exact List.mem_append_right Δ (List.mem_cons_self v s.stack)
    · exact List.mem_append_left _ h2
  have hPvis : ∀ x, (x = v ∨ x ∈ Δ) → visitedN s2 x :=
    fun x hx => hinv2.stackVis x (hPstk2 x hx)
  have hPnstk : ∀ x, (x = v ∨ x ∈ Δ) → x ∉ s.stack := by
    intro x hx
    rcases hx with h1 | h2
    · rw [h1]
      exact hvs
    · exact hΔnstk x h2
  have hPlow : ∀ x, (x = v ∨ x ∈ Δ) → s.id + 1 ≤ s2.low x := by
    intro x hx
    rcases hx with h1 | h2
    · rw [h1, hroot]
    · exact hroot ▸ hΔd x h2
  have hPid : ∀ x, (x = v ∨ x ∈ Δ) → s.id + 1 ≤ idv s2 x := by
    intro x hx
    rcases hx with h1 | h2
    · rw [h1, hidv2]
    · exact le_of_lt (hkids.newReach x (hPvis x (Or.inr h2)) (hΔf x h2)).2
  have hreachP : ∀ x, (x = v ∨ x ∈ Δ) → Reach g v x := by
    intro x hx
    rcases hx with h1 | h2
    · rw [h1]
      exact Relation.ReflTransGen.refl
    · exact (hkids.newReach x (hPvis x (Or.inr h2)) (hΔf x h2)).1
  have hbackP : ∀ x, (x = v ∨ x ∈ Δ) → Reach g x v := by
    intro x hx
    rcases hx with h1 | h2
    · rw [h1]
      exact Relation.ReflTransGen.refl
    · exact stack_reaches_head g ρ v s2 hinv2 x (hPstk2 x (Or.inr h2))
  have hvstk2 : v ∈ s2.stack := hPstk2 v (Or.inl rfl)
  -- pop-time completeness: every node mutually reachable with v lies in
  -- the popped block
  have hclass : ∀ c, visitedN s2 c → Reach g c v → Reach g v c →
      (c ∈ s2.stack → s.id + 1 ≤ idv s2 c) → (c = v ∨ c ∈ Δ) := by
    intro c hcvis hcv hvc hcid
    by_cases hcs : c ∈ s2.stack
    · have hidc := hcid hcs
      rw [hΔst] at hcs
      rcases List.mem_append.mp hcs with hcΔ | hctl
      · exact Or.inr hcΔ
      · rcases List.mem_cons.mp hctl with hcveq | hcss
        · exact Or.inl hcveq
        · exfalso
          have h1 := hidvold c (hinv.stackVis c hcss)
          have h2 := idv_le_id g ρ s hinv c (hinv.stackVis c hcss)
          omega
    · exact absurd (((hinv2.finComplete c hcvis hcs).2 v ⟨hcv, hvc⟩).2.1) (by
        intro h
        exact h hvstk2)
  have hcomp : ∀ y, Reach g v y → Reach g y v → (y = v ∨ y ∈ Δ) := by
    intro y hvy
    induction hvy with
    | refl =>
      intro _
      exact Or.inl rfl
    | @tail b c hvb hbc ih =>
      intro hcv
      have hb := ih ((reach_of_edge hbc).trans hcv)
      rcases hb with hbv | hbΔ
      · rw [hbv] at hbc
        obtain ⟨hcvis, hclow⟩ := hkids.processed c hbc
        refine hclass c hcvis hcv (hvb.tail (hbv ▸ hbc)) ?_
        intro hcs
        have h1 := hclow hcs
        omega
      · have hbs2 : b ∈ s2.stack := hPstk2 b (Or.inr hbΔ)
        have hbρ : b ∉ v :: ρ := by
          intro h
          rcases List.mem_cons.mp h with h1 | h2
          · exact hvΔ (h1 ▸ hbΔ)
          · exact hPnstk b (Or.inr hbΔ) (hinv.pathLive b h2)
        have hcvis := hinv2.explored b (hinv2.stackVis b hbs2) hbρ c hbc
        refine hclass c hcvis hcv (hvb.tail hbc) ?_
        intro hcs
        have h1 := hinv2.lowBack b hbs2 hbρ c hbc hcs
        have h2 := hPlow b (Or.inr hbΔ)
        omega
  have hidv' : ∀ x, idv s' x = idv s2 x := by
    intro x
    unfold idv
    rw [hids']
  have hvis' : ∀ x, visitedN s' x ↔ visitedN s2 x := by
    intro x
    unfold visitedN
    rw [hids']
  -- the caller's invariant holds at the popped state
  have hinv' : TarjanInv g ρ s' := by
    constructor
    · intro x k hxk
      rw [hids'] at hxk
      rw [hid']
      exact hinv2.idsRange x k hxk
    · intro x y k hx hy
      rw [hids'] at hx hy
      exact hinv2.idsInj x y k hx hy
    · intro x hx
      exact hinv2.visLt x ((hvis' x).mp hx)
    · intro x hx
      rw [hstk'] at hx
      exact (hvis' x).mpr (hinv2.stackVis x (hembed x hx))
    · intro x
      rw [hos' x, hstk']
      by_cases hPx : x = v ∨ x ∈ Δ
      · rw [if_pos hPx]
        constructor
        · intro h
          exact absurd h (by decide)
        · intro h
          exact absurd h (hPnstk x hPx)
      · rw [if_neg hPx]
        rw [hinv2.onStackIff x]
        constructor
        · intro h
          rw [hΔst] at h
          rcases List.mem_append.mp h with h1 | h2
          · exact absurd (Or.inr h1) hPx
          · rcases List.mem_cons.mp h2 with h3 | h4
            · exact absurd (Or.inl h3) hPx
            · exact h4
        · intro h
          exact hembed x h
    · rw [hstk']
      have hsub : s.stack.Sublist s2.stack := by
        rw [hΔst]
        exact (List.sublist_cons_self v s.stack).trans
          (List.sublist_append_right Δ (v :: s.stack))
      refine (hinv2.stackSorted.sublist hsub).imp ?_
      intro a b h
      rw [hidv' a, hidv' b]
      exact h
    · intro x hx y hy hle
      rw [hstk'] at hx hy
      rw [hidv' x, hidv' y] at hle
      exact hinv2.reachUp x (hembed x hx) y (hembed y hy) hle
    · intro x hx
      rw [hstk'] at hx
      have hnPx : ¬(x = v ∨ x ∈ Δ) := fun h => hPnstk x h hx
      obtain ⟨hle, y, hys, hyid, hyr⟩ := hinv2.lowLive x (hembed x hx)
      have hynP : ¬(y = v ∨ y ∈ Δ) := by
        intro hP
        have h1 := hPid y hP
        have h2 := hidvold x (hinv.stackVis x hx)
        have h3 := idv_le_id g ρ s hinv x (hinv.stackVis x hx)
        omega
      have hys' : y ∈ s.stack := by
        rw [hΔst] at hys
        rcases List.mem_append.mp hys with h1 | h2
        · exact absurd (Or.inr h1) hynP
        · rcases List.mem_cons.mp h2 with h3 | h4
          · exact absurd (Or.inl h3) hynP
          · exact h4
      constructor
      · rw [hlow' x, if_neg hnPx, hidv' x]
        exact hle
      · refine ⟨y, by rw [hstk']; exact hys', ?_, hyr⟩
        rw [hidv' y, hlow' x, if_neg hnPx]
        exact hyid
    · intro x hx hxρ
      rw [hstk'] at hx
      have hnPx : ¬(x = v ∨ x ∈ Δ) := fun h => hPnstk x h hx
      have hxvρ : x ∉ v :: ρ := by
        intro h
        rcases List.mem_cons.mp h with h1 | h2
        · exact hnPx (Or.inl h1)
        · exact hxρ h2
      rw [hlow' x, if_neg hnPx, hidv' x]
      exact hinv2.lowFrozen x (hembed x hx) hxvρ
    · intro x hxvis hxρ w hw
      rw [hvis' x] at hxvis
      rw [hvis' w]
      by_cases hxv : x = v
      · rw [hxv] at hw
        exact (hkids.processed w hw).1
      · exact hinv2.explored x hxvis (by
          intro h
          rcases List.mem_cons.mp h with h1 | h2
          · exact hxv h1
          · exact hxρ h2) w hw
    · intro z hz hzρ w hzw hws
      rw [hstk'] at hz hws
      have hnPz : ¬(z = v ∨ z ∈ Δ) := fun h => hPnstk z h hz
      have hzvρ : z ∉ v :: ρ := by
        intro h
        rcases List.mem_cons.mp h with h1 | h2
        · exact hnPz (Or.inl h1)
        · exact hzρ h2
      rw [hlow' z, if_neg hnPz, hidv' w]
      exact hinv2.lowBack z (hembed z hz) hzvρ w hzw (hembed w hws)
    · intro x hxvis hxs
      rw [hvis' x] at hxvis
      rw [hstk'] at hxs
      by_cases hPx : x = v ∨ x ∈ Δ
      · refine ⟨⟨v, (hvis' v).mpr hvvis2, by rw [hstk']; exact hvs, ?_, ?_,
          hbackP x hPx, hreachP x hPx⟩, ?_⟩
        · rw [hlow' x, if_pos hPx, hidv' v, hidv2]
        · rw [hlow' v, if_pos (Or.inl rfl), hidv' v, hidv2]
        · intro y hy
          have hvy : Reach g v y := (hreachP x hPx).trans hy.1
          have hyv : Reach g y v := hy.2.trans (hbackP x hPx)
          have hPy := hcomp y hvy hyv
          refine ⟨(hvis' y).mpr (hPvis y hPy), by rw [hstk']; exact hPnstk y hPy, ?_⟩
          rw [hlow' y, if_pos hPy, hlow' x, if_pos hPx]
      · have hxs2 : x ∉ s2.stack := by
          rw [hΔst]
          intro h
          rcases List.mem_append.mp h with h1 | h2
          · exact hPx (Or.inr h1)
          · rcases List.mem_cons.mp h2 with h3 | h4
            · exact hPx (Or.inl h3)
            · exact hxs h4
        obtain ⟨⟨r, hrvis, hrs, hrlow, hrfix, hrmr⟩, hpart⟩ :=
          hinv2.finComplete x hxvis hxs2
        have hnPr : ¬(r = v ∨ r ∈ Δ) := fun h => hrs (hPstk2 r h)
        refine ⟨⟨r, (hvis' r).mpr hrvis, ?_, ?_, ?_, hrmr⟩, ?_⟩
        · rw [hstk']
          intro h
          exact hrs (hembed r h)
        · rw [hlow' x, if_neg hPx, hidv' r]
          exact hrlow
        · rw [hlow' r, if_neg hnPr, hidv' r]
          exact hrfix
        · intro y hy
          obtain ⟨hyvis, hys2, hylow⟩ := hpart y hy
          have hnPy : ¬(y = v ∨ y ∈ Δ) := fun h => hys2 (hPstk2 y h)
          refine ⟨(hvis' y).mpr hyvis, ?_, ?_⟩
          · rw [hstk']
            intro h
            exact hys2 (hembed y h)
          · rw [hlow' y, if_neg hnPy, hlow' x, if_neg hPx]
            exact hylow
    · intro p hp
      rw [hstk']
      exact hinv.pathLive p hp
    · refine List.Pairwise.imp_of_mem ?_ hinv.pathSorted
      intro a b ha hb hab
      have hav := hidvold a (hinv.stackVis a (hinv.pathLive a ha))
      have hbv := hidvold b (hinv.stackVis b (hinv.pathLive b hb))
      rw [hidv' a, hidv' b, hav, hbv]
      exact hab
  constructor
  · exact hinv'
  · intro x hx
    rw [hids']
    exact hids x hx
  · rw [hid']
    exact lt_of_lt_of_le (Nat.lt_succ_self s.id) hkids.idGrow
  · intro x hx
    have hnPx : ¬(x = v ∨ x ∈ Δ) := fun h => hPnstk x h hx
    have hxv : x ≠ v := fun h => hnPx (Or.inl h)
    rw [hlow' x, if_neg hnPx, hkids.lowOldLive x (List.mem_cons_of_mem v hx) hxv]
    exact upd_other s.low v x (s.id + 1) hxv
  · intro x hxvis hxs
    have hxv : x ≠ v := fun h => hv (h ▸ hxvis)
    have hnPx : ¬(x = v ∨ x ∈ Δ) := by
      intro h
      rcases h with h1 | h2
      · exact hxv h1
      · exact hΔfs x h2 hxvis
    have hx1 : x ∉ (dfsEnter s v).stack := by
      intro h
      rcases List.mem_cons.mp h with h1 | h2
      · exact hxv h1
      · exact hxs h2
    rw [hlow' x, if_neg hnPx, hkids.lowOldDead x (hvisds x hxvis) hx1]
    exact upd_other s.low v x (s.id + 1) hxv
  · intro x hxvis hxs
    rw [hstk']
    exact hxs
  · refine ⟨[], by rw [hstk']; rfl,
      fun z hz => absurd hz (List.not_mem_nil z), ?_, fun _ => rfl⟩
    intro h
    rw [hstk'] at h
    exact absurd h hvs
  · constructor
    · exact (hvis' v).mpr hvvis2
    · intro x hx
      exact (hvis' x).mpr (hkids.visGrow x (hvisds x hx))
  · intro x hx hnx
    rw [hvis' x] at hx
    rw [hidv' x]
    by_cases hx1 : visitedN (dfsEnter s v) x
    · rcases (dfsEnter_visited s v x).mp hx1 with h1 | h2
      · rw [h1]
        refine ⟨Relation.ReflTransGen.refl, ?_⟩
        rw [hidv2]
        exact Nat.lt_succ_self s.id
      · exact absurd h2 hnx
    · obtain ⟨hr, hlt⟩ := hkids.newReach x hx hx1
      exact ⟨hr, lt_trans (Nat.lt_succ_self s.id) hlt⟩
  · have h1 : unvis g s' = unvis g s2 := by
      refine unvis_congr g s2 s' ?_
      intro x _
      rw [hids']
    have h2 := hkids.unvisLe
    have h3 := unvis_enter g s v hv hvlt
    omega

/-- Full specification of `TarjanScc::dfs`: called on an undiscovered node
under the invariant with enough fuel, it restores the invariant and
satisfies `DfsPost`. -/
theorem dfs_spec (g : List (List Nat)) (hg : wfG g) :
    ∀ (f : Nat) (ρ : List Nat) (s : TarjanSt) (v : Nat),
      TarjanInv g ρ s → ¬visitedN s v → v < g.length →
      ((ρ = [] ∧ s.stack = []) ∨ ∃ p ρ2, ρ = p :: ρ2 ∧ EdgeG g p v) →
      unvis g s ≤ f →
      DfsPost g ρ s (dfsF g f s v) v := by
  intro f
  induction f with
  | zero =>
    intro ρ s v hinv hv hvlt _ hun
    exact absurd hun (by
      have := unvis_pos g s v hv hvlt
      omega)
  | succ f ih =>
    intro ρ s v hinv hv hvlt hedge hun
    have hinv1 : TarjanInv g (v :: ρ) (dfsEnter s v) :=
      inv_push g ρ s v hinv hv hvlt hedge
    have hun1 : unvis g (dfsEnter s v) ≤ f := by
      have := unvis_enter g s v hv hvlt
      omega
    have hrec : ∀ (s3 : TarjanSt) (w : Nat), TarjanInv g (v :: ρ) s3 →
        ¬visitedN s3 w → w < g.length → EdgeG g v w → unvis g s3 ≤ f →
        DfsPost g (v :: ρ) s3 (dfsF g f s3 w) w := by
      intro s3 w hi hnv hwlt hw hu
      exact ih (v :: ρ) s3 w hi hnv hwlt (Or.inr ⟨v, ρ, rfl, hw⟩) hu
    have hkids := kids_spec g hg ρ v f hrec (g.getD v []) (dfsEnter s v) hinv1
      (fun w hw => hw) hun1
    set s2 := dfsKids (dfsF g f) (dfsEnter s v) v (g.getD v []) with hs2
    have hvids2 : s2.ids v = some (s.id + 1) := by
      rw [hkids.idsOld v ((dfsEnter_visited s v v).mpr (Or.inl rfl))]
      exact dfsEnter_ids_same s v
    have hidAt : (s2.ids v).getD 0 = s.id + 1 := by
      rw [hvids2]
      rfl
    have hred : dfsF g (f + 1) s v =
        (if (s2.ids v).getD 0 = s2.low v then
          { s2 with
            stack := (popLoop v ((s2.ids v).getD 0) s2.stack s2.onStack s2.low).1
            onStack := (popLoop v ((s2.ids v).getD 0) s2.stack s2.onStack s2.low).2.1
            low := (popLoop v ((s2.ids v).getD 0) s2.stack s2.onStack s2.low).2.2 }
        else s2) := rfl
    rw [hred, hidAt]
    by_cases hpop : s.id + 1 = s2.low v
    · rw [if_pos hpop]
      obtain ⟨Δ, hΔst1, hΔf, hΔd⟩ := hkids.stackBlock
      have hΔst : s2.stack = Δ ++ v :: s.stack := hΔst1
      have hvΔ : v ∉ Δ :=
        fun h => hΔf v h ((dfsEnter_visited s v v).mpr (Or.inl rfl))
      refine dfs_pop g ρ s v hinv hv hvlt s2 Δ hkids hΔst hΔf hΔd hpop.symm
        _ rfl rfl ?_ ?_ ?_
      · show (popLoop v (s.id + 1) s2.stack s2.onStack s2.low).1 = s.stack
        rw [hΔst]
        exact popLoop_stack v (s.id + 1) Δ s.stack s2.onStack s2.low hvΔ
      · intro x
        show (popLoop v (s.id + 1) s2.stack s2.onStack s2.low).2.1 x = _
        rw [hΔst]
        exact popLoop_onStack v (s.id + 1) Δ s.stack s2.onStack s2.low hvΔ x
      · intro x
        show (popLoop v (s.id + 1) s2.stack s2.onStack s2.low).2.2 x = _
        rw [hΔst]
        exact popLoop_low v (s.id + 1) Δ s.stack s2.onStack s2.low hvΔ x
    · rw [if_neg hpop]
      refine dfs_nopop g ρ s v hinv hv hvlt s2 hkids ?_ ?_
      · unfold idv
        rw [hvids2]
        rfl
      · exact fun h => hpop h.symm

/-- The initial Tarjan state satisfies the invariant with an empty path. -/
theorem initInv (g : List (List Nat)) : TarjanInv g [] initTarjanSt := by
  constructor
  · intro x k h
    exact Option.noConfusion h
  · intro x y k hx _
    exact Option.noConfusion hx
  · intro x hx
    exact absurd rfl hx
  · intro x hx
    exact absurd hx (List.not_mem_nil x)
  · intro x
    constructor
    · intro h
      exact (Bool.false_ne_true h).elim
    · intro h
      exact absurd h (List.not_mem_nil x)
  · exact List.Pairwise.nil
  · intro x hx
    exact absurd hx (List.not_mem_nil x)
  · intro x hx
    exact absurd hx (List.not_mem_nil x)
  · intro x hx
    exact absurd hx (List.not_mem_nil x)
  · intro x hx
    exact absurd rfl hx
  · intro z hz
    exact absurd hz (List.not_mem_nil z)
  · intro x hx
    exact absurd rfl hx
  · intro p hp
    exact absurd hp (List.not_mem_nil p)
  · exact List.Pairwise.nil

/-- The root loop of `TarjanScc::run` preserves the empty-path invariant
and discovers every listed node. -/
theorem runLoopPure_spec (g : List (List Nat)) (hg : wfG g) :
    ∀ (is : List Nat) (s : TarjanSt) (c : Nat), TarjanInv g [] s →
      (∀ i ∈ is, i < g.length) →
      TarjanInv g [] (runLoopPure g is s c).1 ∧
      (∀ x, visitedN s x → visitedN (runLoopPure g is s c).1 x) ∧
      (∀ i ∈ is, visitedN (runLoopPure g is s c).1 i) := by
  intro is
  induction is with
  | nil =>
    intro s c hinv _
    exact ⟨hinv, fun x h => h, fun i hi => absurd hi (List.not_mem_nil i)⟩
  | cons i is ih =>
    intro s c hinv hlt
    by_cases hvi : (s.ids i).isNone = true
    · have hnv : ¬visitedN s i := by
        simp only [visitedN, ne_eq, not_not]
        exact Option.isNone_iff_eq_none.mp hvi
      have hstk := stack_empty_of_inv_nil g s hinv
      have hpost := dfs_spec g hg g.length [] s i hinv hnv
        (hlt i (List.mem_cons_self i is)) (Or.inl ⟨rfl, hstk⟩)
        (unvis_le_len g s)
      have hred : runLoopPure g (i :: is) s c =
          runLoopPure g is (dfsF g g.length s i) (c + 1) := by
        simp only [runLoopPure, if_pos hvi]
      rw [hred]
      obtain ⟨h1, h2, h3⟩ := ih (dfsF g g.length s i) (c + 1) hpost.inv
        (fun j hj => hlt j (List.mem_cons_of_mem i hj))
      refine ⟨h1, fun x hx => h2 x (hpost.visGrow.2 x hx), ?_⟩
      intro j hj
      rcases List.mem_cons.mp hj with h4 | h5
      · rw [h4]
        exact h2 i hpost.visGrow.1
      · exact h3 j h5
    · have hred : runLoopPure g (i :: is) s c = runLoopPure g is s c := by
        simp only [runLoopPure, if_neg hvi]
      rw [hred]
      obtain ⟨h1, h2, h3⟩ := ih s c hinv
        (fun j hj => hlt j (List.mem_cons_of_mem i hj))
      refine ⟨h1, h2, ?_⟩
      intro j hj
      rcases List.mem_cons.mp hj with h4 | h5
      · rw [h4]
        refine h2 i ?_
        simp only [visitedN, ne_eq]
        intro he
        rw [he] at hvi
        exact hvi rfl
      · exact h3 j h5

/-- After the complete run: the invariant holds, the stack is empty and
every node has been discovered. -/
theorem tarjan_final (g : List (List Nat)) (hg : wfG g) :
    TarjanInv g [] (runLoopPure g (List.range g.length) initTarjanSt 0).1 ∧
    (runLoopPure g (List.range g.length) initTarjanSt 0).1.stack = [] ∧
    ∀ i, i < g.length →
      visitedN (runLoopPure g (List.range g.length) initTarjanSt 0).1 i := by
  obtain ⟨h1, _, h3⟩ := runLoopPure_spec g hg (List.range g.length) initTarjanSt 0
    (initInv g) (fun i hi => List.mem_range.mp hi)
  exact ⟨h1, stack_empty_of_inv_nil g _ h1, fun i hi => h3 i (List.mem_range.mpr hi)⟩

/-- At the final state, two nodes have equal `low` exactly when they are in
the same strongly connected component. -/
theorem low_classifies (g : List (List Nat)) (s : TarjanSt)
    (hinv : TarjanInv g [] s) (hstk : s.stack = [])
    (hall : ∀ i, i < g.length → visitedN s i) :
    ∀ x y, x < g.length → y < g.length → (s.low x = s.low y ↔ MutReach g x y) := by
  have hdead : ∀ x, x ∉ s.stack := by
    intro x h
    rw [hstk] at h
    exact List.not_mem_nil x h
  intro x y hx hy
  constructor
  · intro hlow
    obtain ⟨⟨r, hrvis, _, hrlow, _, hrmr⟩, _⟩ :=
      hinv.finComplete x (hall x hx) (hdead x)
    obtain ⟨⟨r2, hr2vis, _, hr2low, _, hr2mr⟩, _⟩ :=
      hinv.finComplete y (hall y hy) (hdead y)
    have h1 : s.ids r = some (idv s r) := visited_ids_idv s r hrvis
    have h2 : s.ids r2 = some (idv s r2) := visited_ids_idv s r2 hr2vis
    have h3 : idv s r = idv s r2 := by omega
    have h4 : s.ids r2 = some (idv s r) := by
      rw [h3]
      exact h2
    have hre : r = r2 := hinv.idsInj r r2 (idv s r) h1 h4
    rw [← hre] at hr2mr
    exact ⟨hrmr.1.trans hr2mr.2, hr2mr.1.trans hrmr.2⟩
  · intro hmr
    exact (((hinv.finComplete x (hall x hx) (hdead x)).2 y hmr).2.2).symm

/-- Membership in a sorted insertion. -/
theorem mem_natInsertSorted (k x : Nat) (l : List Nat) :
    x ∈ natInsertSorted k l ↔ x = k ∨ x ∈ l := by
  induction l with
  | nil => simp [natInsertSorted]
  | cons k' rest ih =>
    unfold natInsertSorted
    by_cases h1 : k < k'
    · rw [if_pos h1]
      simp [List.mem_cons]
    · rw [if_neg h1]
      by_cases h2 : k = k'
      · rw [if_pos h2]
        subst h2
        simp only [List.mem_cons]
        tauto
      · rw [if_neg h2]
        simp only [List.mem_cons, ih]
        tauto

/-- Sorted insertion preserves strict ascending order. -/
theorem sorted_natInsertSorted (k : Nat) (l : List Nat)
    (h : l.Pairwise (fun a b => a < b)) :
    (natInsertSorted k l).Pairwise (fun a b => a < b) := by
  induction l with
  | nil => simp [natInsertSorted]
  | cons k' rest ih =>
    obtain ⟨hk', hrest⟩ := List.pairwise_cons.mp h
    unfold natInsertSorted
    by_cases h1 : k < k'
    · rw [if_pos h1]
      refine List.pairwise_cons.mpr ⟨?_, h⟩
      intro b hb
      rcases List.mem_cons.mp hb with h2 | h3
      · rw [h2]
        exact h1
      · exact lt_trans h1 (hk' b h3)
    · rw [if_neg h1]
      by_cases h2 : k = k'
      · rw [if_pos h2]
        exact h
      · rw [if_neg h2]
        refine List.pairwise_cons.mpr ⟨?_, ih hrest⟩
        intro b hb
        rcases (mem_natInsertSorted k b rest).mp hb with h3 | h4
        · rw [h3]
          omega
        · exact hk' b h4

/-- The key fold of `tarjanGroups`: the accumulated key list stays sorted
and collects exactly the seen values. -/
theorem keys_foldl_spec (l : List Nat) :
    ∀ acc : List Nat, acc.Pairwise (fun a b => a < b) →
      (l.foldl (fun acc k => natInsertSorted k acc) acc).Pairwise
        (fun a b => a < b) ∧
      ∀ x, x ∈ l.foldl (fun acc k => natInsertSorted k acc) acc ↔
        x ∈ acc ∨ x ∈ l := by
  induction l with
  | nil =>
    intro acc hacc
    exact ⟨hacc, fun x => by simp⟩
  | cons k l ih =>
    intro acc hacc
    obtain ⟨h1, h2⟩ := ih (natInsertSorted k acc) (sorted_natInsertSorted k acc hacc)
    refine ⟨h1, ?_⟩
    intro x
    simp only [List.foldl_cons]
    rw [h2 x, mem_natInsertSorted k x acc]
    simp only [List.mem_cons]
    tauto

/-- In a duplicate-free list, a present value is counted exactly once. -/
theorem countP_eq_one_of_nodup (a : Nat) (l : List Nat) (hnd : l.Nodup)
    (ha : a ∈ l) : l.countP (fun b => decide (b = a)) = 1 := by
  induction l with
  | nil => exact absurd ha (List.not_mem_nil a)
  | cons b l ih =>
    rw [List.countP_cons]
    obtain ⟨hbl, hl⟩ := List.nodup_cons.mp hnd
    rcases List.mem_cons.mp ha with h1 | h2
    · have h0 : l.countP (fun c => decide (c = a)) = 0 := by
        rw [List.countP_eq_zero]
        intro c hc
        simp only [decide_eq_true_eq]
        intro hca
        rw [hca, h1] at hc
        exact hbl hc
      rw [h0]
      simp [h1]
    · have hba : ¬(b = a) := fun h => hbl (h ▸ h2)
      rw [ih hl h2]
      simp [hba]

/-- Group ids in the main output are bounded by the starting index plus the
number of groups. -/
theorem mainOut_ids_bound {α : Type} (indices : List α) (dflt : α) :
    ∀ (gs : List (List Nat)) (n : Nat) (pr : α × Nat),
      pr ∈ (gs.enumFrom n).flatMap
        (fun gc => gc.2.map (fun idx => (indices.getD idx dflt, gc.1))) →
      n ≤ pr.2 ∧ pr.2 < n + gs.length := by
  intro gs
  induction gs with
  | nil =>
    intro n pr h
    simp [List.enumFrom] at h
  | cons grp gs ih =>
    intro n pr h
    simp only [List.enumFrom, List.flatMap_cons, List.mem_append] at h
    rcases h with h1 | h2
    · obtain ⟨idx, _, hpr⟩ := List.mem_map.mp h1
      rw [← hpr]
      simp only [List.length_cons]
      omega
    · have := ih (n + 1) pr h2
      simp only [List.length_cons]
      omega

/-- Every group id in range is emitted, provided all groups are nonempty. -/
theorem mainOut_ids_exist {α : Type} (indices : List α) (dflt : α) :
    ∀ (gs : List (List Nat)) (n : Nat), (∀ grp ∈ gs, grp ≠ []) →
      ∀ k, n ≤ k → k < n + gs.length →
      ∃ pr ∈ (gs.enumFrom n).flatMap
        (fun gc => gc.2.map (fun idx => (indices.getD idx dflt, gc.1))),
        pr.2 = k := by
  intro gs
  induction gs with
  | nil =>
    intro n _ k h1 h2
    simp only [List.length_nil] at h2
    omega
  | cons grp gs ih =>
    intro n hne k h1 h2
    by_cases hk : k = n
    · have hgne := hne grp (List.mem_cons_self grp gs)
      obtain ⟨idx, hidx⟩ : ∃ idx, idx ∈ grp := by
        cases grp with
        | nil => exact absurd rfl hgne
        | cons a l => exact ⟨a, List.mem_cons_self a l⟩
      refine ⟨(indices.getD idx dflt, n), ?_, hk.symm⟩
      simp only [List.enumFrom, List.flatMap_cons, List.mem_append]
      left
      exact List.mem_map.mpr ⟨idx, hidx, rfl⟩
    · obtain ⟨pr, hpr, hpr2⟩ := ih (n + 1)
        (fun grp2 hg2 => hne grp2 (List.mem_cons_of_mem grp hg2)) k (by omega)
        (by simp only [List.length_cons] at h2; omega)
      refine ⟨pr, ?_, hpr2⟩
      simp only [List.enumFrom, List.flatMap_cons, List.mem_append]
      right
      exact hpr

/-- The groups returned by a complete Tarjan run are exactly the strongly
connected components: each group is nonempty, consists of node indices that
are pairwise mutually reachable, is closed under mutual reachability, and
every node lies in exactly one group. -/
theorem tarjanRun_groups (g : List (List Nat)) (hg : wfG g) :
    (∀ grp ∈ tarjanRun g, grp ≠ [] ∧ (∀ x ∈ grp, x < g.length) ∧
       (∀ x ∈ grp, ∀ y ∈ grp, MutReach g x y) ∧
       (∀ x ∈ grp, ∀ y, y < g.length → MutReach g x y → y ∈ grp)) ∧
    (∀ x, x < g.length →
       (tarjanRun g).countP (fun grp => decide (x ∈ grp)) = 1) := by
  obtain ⟨hinv, hstk, hall⟩ := tarjan_final g hg
  set s := (runLoopPure g (List.range g.length) initTarjanSt 0).1 with hs
  have hcls := low_classifies g s hinv hstk hall
  obtain ⟨hsorted, hmem⟩ := keys_foldl_spec ((List.range g.length).map s.low)
    [] List.Pairwise.nil
  set keys := ((List.range g.length).map s.low).foldl
    (fun acc k => natInsertSorted k acc) [] with hkeysdef
  have hnd : keys.Nodup := hsorted.imp (fun h => Nat.ne_of_lt h)
  have hkmem : ∀ x, x ∈ keys ↔ ∃ i, i < g.length ∧ s.low i = x := by
    intro x
    rw [hmem x]
    simp [List.mem_map, List.mem_range]
  have hrun : tarjanRun g = keys.map
      (fun key => (List.range g.length).filter (fun i => s.low i = key)) := rfl
  have hgrpmem : ∀ key x,
      x ∈ (List.range g.length).filter (fun i => s.low i = key) ↔
        (x < g.length ∧ s.low x = key) := by
    intro key x
    rw [List.mem_filter, List.mem_range]
    simp
  constructor
  · intro grp hgrp
    rw [hrun] at hgrp
    obtain ⟨key, hkey, hF⟩ := List.mem_map.mp hgrp
    obtain ⟨i, hi, hilow⟩ := (hkmem key).mp hkey
    refine ⟨?_, ?_, ?_, ?_⟩
    · intro hnil
      have hmem2 : i ∈ (List.range g.length).filter (fun i => s.low i = key) :=
        (hgrpmem key i).mpr ⟨hi, hilow⟩
      rw [hF, hnil] at hmem2
      exact List.not_mem_nil i hmem2
    · intro x hx
      rw [← hF] at hx
      exact ((hgrpmem key x).mp hx).1
    · intro x hx y hy
      rw [← hF] at hx hy
      obtain ⟨hx1, hx2⟩ := (hgrpmem key x).mp hx
      obtain ⟨hy1, hy2⟩ := (hgrpmem key y).mp hy
      exact (hcls x y hx1 hy1).mp (by rw [hx2, hy2])
    · intro x hx y hy1 hmr
      rw [← hF] at hx ⊢
      obtain ⟨hx1, hx2⟩ := (hgrpmem key x).mp hx
      refine (hgrpmem key y).mpr ⟨hy1, ?_⟩
      rw [← hx2]
      exact ((hcls x y hx1 hy1).mpr hmr).symm
  · intro x hx
    rw [hrun, List.countP_map]
    have hxkey : s.low x ∈ keys := (hkmem (s.low x)).mpr ⟨x, hx, rfl⟩
    have hcongr : keys.countP ((fun grp => decide (x ∈ grp)) ∘
        (fun key => (List.range g.length).filter (fun i => s.low i = key))) =
        keys.countP (fun key => decide (key = s.low x)) := by
      apply List.countP_congr
      intro key hkey
      simp only [Function.comp_apply, decide_eq_true_eq]
      constructor
      · intro h
        exact (((hgrpmem key x).mp h).2).symm
      · intro h
        exact (hgrpmem key x).mpr ⟨hx, h.symm⟩
    rw [hcongr]
    exact countP_eq_one_of_nodup (s.low x) keys hnd hxkey

/-- C1: For every finite directed graph given as adjacency lists,
`TarjanScc::run` (invoked by `StronglyConnectedComponent::run`) partitions
the nodes into groups such that every emitted group is a strongly connected
component of the input graph (nonempty, pairwise mutually reachable and
closed under mutual reachability), every node is assigned to exactly one
group, and the group ids in the output tuples of the main loop are dense on
`[0, K)` where `K` is the number of emitted groups — which, the partition
being by strongly connected components, is their number. -/
theorem tarjan_scc_partition {α : Type} (g : List (List Nat)) (hg : wfG g)
    (indices : List α) (dflt : α) :
    (∀ grp ∈ tarjanRun g, grp ≠ [] ∧ (∀ x ∈ grp, x < g.length) ∧
       (∀ x ∈ grp, ∀ y ∈ grp, MutReach g x y) ∧
       (∀ x ∈ grp, ∀ y, y < g.length → MutReach g x y → y ∈ grp)) ∧
    (∀ x, x < g.length →
       (tarjanRun g).countP (fun grp => decide (x ∈ grp)) = 1) ∧
    (∀ pr ∈ sccMainOut indices dflt (tarjanRun g),
       pr.2 < (tarjanRun g).length) ∧
    (∀ k, k < (tarjanRun g).length →
       ∃ pr ∈ sccMainOut indices dflt (tarjanRun g), pr.2 = k) := by
  obtain ⟨hgrps, hcount⟩ := tarjanRun_groups g hg
  refine ⟨hgrps, hcount, ?_, ?_⟩
  · intro pr hpr
    have hb := mainOut_ids_bound indices dflt (tarjanRun g) 0 pr hpr
    omega
  · intro k hk
    exact mainOut_ids_exist indices dflt (tarjanRun g) 0
      (fun grp hgrp => (hgrps grp hgrp).1) k (Nat.zero_le k) (by omega)

/-- Witness for the Tarjan partition theorem on the graph
`0 ↔ 1, 2 → 0`. -/
theorem tarjan_scc_partition_witness :
    wfG [[1], [0], [0]] ∧
    (tarjanRun [[1], [0], [0]]).countP (fun grp => decide (0 ∈ grp)) = 1 :=
  ⟨by unfold wfG; decide,
   (tarjan_scc_partition [[1], [0], [0]] (by unfold wfG; decide)
     ([] : List Nat) 0).2.1 0 (by decide)⟩

end Cozo
